import Mathlib

/-!
Verification of the mcphone2004/cache repository against its specification.

The development shallowly embeds the Go sources:
* `lru` — the LRU cache of src/lru/lru.go on top of the ordered container of
  src/internal/list.go and src/list/list.go.  The `items` hash map and the
  recency `queue` of the Go code are kept in lock-step by the implementation;
  the embedding represents both by a single association list `entries`
  ordered front (most recently used) to back (least recently used), whose
  key column is kept duplicate-free exactly as the Go invariant
  "a key is indexed iff a live node exists for it; at most one node per key".
* `shard` — the sharded router of src/shard (current version, the one whose
  signatures match src/shard/options.go).
* `expiry` — the bucketed expiry engine of src/internal (ExpiryMap), embedded
  as an explicit labelled transition system with a discrete wall clock.
* `shardopts` — the pure shard-count derivation of src/shard/options.go.

Machine integers (Go `int`/`uint`) are embedded as `Nat`: none of the code
verified here relies on wrap-around, and Go `uint` arithmetic in
computeMaxshards stays far below 2^64 for all inputs considered.
-/

section assocmap

variable {K V : Type} [DecidableEq K]

/-- Lookup by key in an association list: a Go map access. -/
def lookupKey (k : K) : List (K × V) → Option V
  | [] => none
  | e :: es => if e.1 = k then some e.2 else lookupKey k es

/-- Remove the (unique) entry with the given key: a Go map delete.  On a
list with duplicate-free keys this also models unlinking the key's node. -/
def removeKey (k : K) : List (K × V) → List (K × V)
  | [] => []
  | e :: es => if e.1 = k then es else e :: removeKey k es

/-- Key column of an association list. -/
def keysOf (l : List (K × V)) : List K := l.map Prod.fst

end assocmap

namespace lru

/-- Error results of cache operations, from src/types/error.go.  The only
error a constructed cache ever returns is the shutdown error. -/
inductive CacheErr : Type
  | shutdownError
deriving DecidableEq, Repr

/-- The LRU cache of src/lru/lru.go.  `entries` is the recency queue from
front (most recently used) to back (least recently used); the Go `items`
map is the association by key of the same list. -/
structure Cache (K V : Type) where
  isShutdown : Bool
  capacity : Nat
  entries : List (K × V)
deriving Repr

variable {K V : Type} [DecidableEq K]

/-- Fresh cache from lru.New with the given (validated, positive) capacity. -/
def Cache.new (c : Nat) : Cache K V :=
  { isShutdown := false, capacity := c, entries := [] }

/-- Result of Cache.Get: value (none encodes Go's zero value with found=false),
error, and the post state. -/
structure GetRes (K V : Type) where
  value : Option V
  err : Option CacheErr
  st : Cache K V

/-- Result of a mutating operation: error, the entries handed to the
eviction callback (in invocation order), and the post state. -/
structure MutRes (K V : Type) where
  err : Option CacheErr
  evicted : List (K × V)
  st : Cache K V

/-- Result of Cache.Delete. -/
structure DelRes (K V : Type) where
  found : Bool
  err : Option CacheErr
  evicted : List (K × V)
  st : Cache K V

/-- Cache.Get of src/lru/lru.go: shutdown check, then on a hit move the
entry to the front and return its value. -/
def Cache.Get (s : Cache K V) (k : K) : GetRes K V :=
  if s.isShutdown then ⟨none, some .shutdownError, s⟩
  else
    match lookupKey k s.entries with
    | some v => ⟨some v, none, { s with entries := (k, v) :: removeKey k s.entries }⟩
    | none => ⟨none, none, s⟩

/-- Cache.Put of src/lru/lru.go: a shutdown cache returns nil and is left
unchanged; an existing key is updated in place and moved to the front; a
new key first evicts the back entry when size equals capacity (removing it
from index and container), then is pushed to the front; the eviction
callback runs after the insertion, outside the lock. -/
def Cache.Put (s : Cache K V) (k : K) (v : V) : MutRes K V :=
  if s.isShutdown then ⟨none, [], s⟩
  else
    match lookupKey k s.entries with
    | some _ => ⟨none, [], { s with entries := (k, v) :: removeKey k s.entries }⟩
    | none =>
      if s.entries.length = s.capacity then
        match s.entries.getLast? with
        | some e0 =>
          ⟨none, [e0], { s with entries := (k, v) :: s.entries.dropLast }⟩
        | none => ⟨none, [], { s with entries := [(k, v)] }⟩
      else ⟨none, [], { s with entries := (k, v) :: s.entries }⟩

/-- Cache.Delete of src/lru/lru.go. -/
def Cache.Delete (s : Cache K V) (k : K) : DelRes K V :=
  if s.isShutdown then ⟨false, some .shutdownError, [], s⟩
  else
    match lookupKey k s.entries with
    | some v => ⟨true, none, [(k, v)], { s with entries := removeKey k s.entries }⟩
    | none => ⟨false, none, [], s⟩

/-- Cache.Reset of src/lru/lru.go: evict repeatedly from the back until
empty, invoking the callback once per entry (back to front). -/
def Cache.Reset (s : Cache K V) : MutRes K V :=
  if s.isShutdown then ⟨some .shutdownError, [], s⟩
  else ⟨none, s.entries.reverse, { s with entries := [] }⟩

/-- Cache.Shutdown of src/lru/lru.go: idempotent; on the first call flips
the flag, drains every entry through the eviction callback and destroys
the queue. -/
def Cache.Shutdown (s : Cache K V) : List (K × V) × Cache K V :=
  if s.isShutdown then ([], s)
  else (s.entries.reverse, { s with isShutdown := true, entries := [] })

/-- Cache.Size of src/lru/lru.go. -/
def Cache.SizeOp (s : Cache K V) : Nat × Option CacheErr :=
  if s.isShutdown then (0, some .shutdownError) else (s.entries.length, none)

/-- Cache.Capacity of src/lru/lru.go. -/
def Cache.CapacityOp (s : Cache K V) : Nat × Option CacheErr :=
  if s.isShutdown then (0, some .shutdownError) else (s.capacity, none)

/-- Entries visited by iterating fn front-to-back until fn returns false
(the entry on which fn returns false is still visited), with the stop flag:
the body of the Traverse loops of lru.go and shard.go. -/
def visitList (fn : K → V → Bool) : List (K × V) → List (K × V) × Bool
  | [] => ([], false)
  | e :: es =>
    if fn e.1 e.2 then
      let r := visitList fn es
      (e :: r.1, r.2)
    else ([e], true)

/-- Cache.Traverse of src/lru/lru.go: shutdown error, else visit entries
most-recently-used first, stopping early when fn returns false. -/
def Cache.Traverse (s : Cache K V) (fn : K → V → Bool) :
    List (K × V) × Option CacheErr :=
  if s.isShutdown then ([], some .shutdownError)
  else ((visitList fn s.entries).1, none)

/-- Client operations driving a cache, for trace-based statements. -/
inductive Op (K V : Type)
  | put (k : K) (v : V)
  | get (k : K)
  | del (k : K)
  | reset
  | shutdown

/-- One operation step: the eviction-callback invocations it performs and
the successor state. -/
def Cache.step (s : Cache K V) : Op K V → List (K × V) × Cache K V
  | .put k v => let r := s.Put k v; (r.evicted, r.st)
  | .get k => ([], (s.Get k).st)
  | .del k => let r := s.Delete k; (r.evicted, r.st)
  | .reset => let r := s.Reset; (r.evicted, r.st)
  | .shutdown => s.Shutdown

/-- Run a trace of operations from a fresh cache of capacity c. -/
def runOps (c : Nat) (ops : List (Op K V)) : Cache K V :=
  ops.foldl (fun s op => (s.step op).2) (Cache.new c)

/-- Spec-side ghost map for claim C1, driven by the operations and by the
removal events the cache reports through its eviction callback: after each
step it associates k with v exactly when v is the most recent Put for k
and k has not been deleted or evicted since. -/
def ghostStep (s : Cache K V) (g : List (K × V)) : Op K V → List (K × V)
  | op =>
    let ev := (s.step op).1
    let g1 := ev.foldl (fun acc e => removeKey e.1 acc) g
    match op with
    | .put k v => if s.isShutdown then g1 else (k, v) :: removeKey k g1
    | _ => g1

/-- Run a trace keeping both the cache and the C1 ghost map. -/
def runG (c : Nat) (ops : List (Op K V)) : Cache K V × List (K × V) :=
  ops.foldl (fun p op => ((p.1.step op).2, ghostStep p.1 p.2 op)) (Cache.new c, [])

/-- One when the operation inserts a brand-new entry (an active Put on an
absent key), zero otherwise: the independent insertion count of claim C2. -/
def insertedFlag (s : Cache K V) : Op K V → Nat
  | .put k _ =>
    if s.isShutdown then 0
    else
      match lookupKey k s.entries with
      | some _ => 0
      | none => 1
  | _ => 0

/-- Run a trace accumulating the total number of eviction-callback
invocations and the total number of insertions. -/
def runCount (c : Nat) (ops : List (Op K V)) : Cache K V × Nat × Nat :=
  ops.foldl
    (fun p op =>
      ((p.1.step op).2, p.2.1 + (p.1.step op).1.length, p.2.2 + insertedFlag p.1 op))
    (Cache.new c, 0, 0)

end lru

namespace internal

/-- Outcome of running a Go function: normal return, or an uncaught panic
carrying a payload of type P. -/
inductive GoResult (P : Type)
  | ok
  | panicked (p : P)
deriving DecidableEq, Repr

/-- List.OnEvict of src/internal/list.go, invocation part.  The Go body is
an immediately invoked closure
`func() { if r := recover(); r != nil { fmt.Println(...) }; l.onEvict(ctx, k, v) }()`
with no defer statement: the Go specification makes `recover()` return nil
whenever it is not called directly by a deferred function, so the guard is
evaluated (to nil) before the callback runs and can never observe a panic
raised by the callback; a panicking callback therefore unwinds out of
OnEvict into the caller.  The callback is embedded as a function that
either returns normally or panics with a payload. -/
def OnEvictRun {K V P : Type} (onEvict : Option (K → V → Except P Unit))
    (k : K) (v : V) : GoResult P :=
  match onEvict with
  | none => GoResult.ok
  | some cb =>
    let recovered : Option P := none
    match recovered with
    | some _ => GoResult.ok
    | none =>
      match cb k v with
      | Except.ok _ => GoResult.ok
      | Except.error p => GoResult.panicked p

end internal

namespace lru

variable {K V P : Type} [DecidableEq K]

/-- Cache.Delete followed by the OnEvict invocations it performs after
releasing the lock (src/lru/lru.go lines 161-177): the overall outcome the
caller of Delete observes, given the configured eviction callback. -/
def deleteWithCallback (s : Cache K V) (cb : Option (K → V → Except P Unit))
    (k : K) : DelRes K V × internal.GoResult P :=
  let r := s.Delete k
  (r,
    r.evicted.foldl
      (fun acc e =>
        match acc with
        | internal.GoResult.panicked p => internal.GoResult.panicked p
        | internal.GoResult.ok => internal.OnEvictRun cb e.1 e.2)
      internal.GoResult.ok)

end lru

namespace shardopts

/-- Number of bits needed to represent n, Go's math/bits.Len. -/
def bitsLen (n : Nat) : Nat := Nat.size n

/-- nextPowerOfTwo of src/shard/options.go: 1 for n ≤ 1, else 1 << bits.Len(n-1). -/
def nextPowerOfTwo (n : Nat) : Nat :=
  if n ≤ 1 then 1 else 2 ^ bitsLen (n - 1)

/-- computeMaxshards of src/shard/options.go.  When no explicit minimum is
given it takes the larger of ceil(capacity/targetPerShard) (zero when
targetPerShard is zero) and 4x the CPU count (clamped to at least one),
rounds up to a power of two, caps at 256, and finally rounds the chosen
minimum up to a power of two. -/
def computeMaxshards (capacity targetPerShard minShards cpuCount : Nat) : Nat :=
  let minShards2 :=
    if minShards = 0 then
      let rawByCapacity :=
        if targetPerShard > 0 then (capacity + targetPerShard - 1) / targetPerShard
        else 0
      let cpuCount2 := if cpuCount = 0 then 1 else cpuCount
      let rawByCPU := cpuCount2 * 4
      let rawMinShards := max rawByCapacity rawByCPU
      min (nextPowerOfTwo rawMinShards) 256
    else minShards
  nextPowerOfTwo minShards2

end shardopts

namespace shard

variable {K V : Type} [DecidableEq K]

/-- The sharded cache of src/shard (current shard.go, the version whose
signatures match src/shard/options.go).  `isShutdown` abstracts the Go
test of whether shard slot zero holds the no-op sentinel; each live shard
is an LRU cache. -/
structure Router (K V : Type) where
  isShutdown : Bool
  shards : List (lru.Cache K V)

/-- Effect on the router's Traverse closure of calling one shard's
Traverse: the visited entries and whether fn requested a stop.  A shard
that reports shutdown visits nothing (the router ignores the error). -/
def shardVisit (s : lru.Cache K V) (fn : K → V → Bool) : List (K × V) × Bool :=
  if s.isShutdown then ([], false) else lru.visitList fn s.entries

/-- The shard loop of Cache.Traverse: visit shards in order, breaking out
entirely once the stop flag is set. -/
def routerGo (fn : K → V → Bool) : List (lru.Cache K V) → List (K × V)
  | [] => []
  | s :: rest =>
    let r := shardVisit s fn
    if r.2 then r.1 else r.1 ++ routerGo fn rest

/-- Cache.Traverse of the sharded cache: nothing on a shutdown router,
else the shard loop. -/
def Router.TraverseVisited (r : Router K V) (fn : K → V → Bool) : List (K × V) :=
  if r.isShutdown then [] else routerGo fn r.shards

/-- Spec-side reading of claim C7: Traverse visits the prefix of the
concatenation of all shards' recency lists (shards in fixed order,
most-recently-used first inside each shard) up to and including the first
entry on which fn returns false, and nothing after it. -/
def specTraverse (fn : K → V → Bool) (shards : List (lru.Cache K V)) :
    List (K × V) :=
  (lru.visitList fn (shards.map lru.Cache.entries).flatten).1

end shard

namespace expiry

variable {K : Type} [DecidableEq K]

/-- State of the ExpiryMap of src/internal (second file of list.go):
the expiryTimes map as an association list from bucket deadline to the
bucket's key set (a duplicate-free list), the multiset of deadlines pushed
onto the time min-heap, and a discrete wall clock.  Time instants are
nanosecond counts embedded as Nat. -/
structure EState (K : Type) where
  buckets : List (Nat × List K)
  heap : List Nat
  now : Nat
deriving Repr

/-- Fresh ExpiryMap from newIntern. -/
def init : EState K := ⟨[], [], 0⟩

/-- Bucket boundary rounding of Register: a time already on a bucket
boundary is kept, otherwise it is rounded up to the next boundary
(Go: t.Add(bucketSize-1).Truncate(bucketSize)). -/
def bucketOf (B t : Nat) : Nat :=
  if t % B = 0 then t else ((t + B - 1) / B) * B

/-- Insert a key into a Go map-backed set. -/
def addKey (k : K) (s : List K) : List K := if k ∈ s then s else k :: s

/-- ExpiryMap.Register: round the time up to its bucket, add the key to the
bucket's set, creating the set and pushing the deadline onto the heap when
the bucket is new.  The returned handle carries the rounded deadline. -/
def register (B : Nat) (s : EState K) (k : K) (t : Nat) : EState K :=
  let tb := bucketOf B t
  match lookupKey tb s.buckets with
  | some set => { s with buckets := (tb, addKey k set) :: removeKey tb s.buckets }
  | none => { s with buckets := (tb, [k]) :: s.buckets, heap := tb :: s.heap }

/-- ExpiryMap.Unregister: remove the key from the handle's bucket; when the
set empties the bucket is deleted from the map (the heap is not touched). -/
def unregister (s : EState K) (h : Nat) (k : K) : EState K :=
  match lookupKey h s.buckets with
  | some set =>
    let set2 := set.erase k
    if set2.isEmpty then { s with buckets := removeKey h s.buckets }
    else { s with buckets := (h, set2) :: removeKey h s.buckets }
  | none => s

/-- Minimum of the heap, Peep of the min-heap of src/heap/heap.go. -/
def heapMin : List Nat → Option Nat
  | [] => none
  | h :: t => some (t.foldl min h)

/-- A drained bucket as handed to the expiry callback, together with the
wall clock at which the worker drained it. -/
structure Report (K : Type) where
  deadline : Nat
  keys : List K
  time : Nat
deriving Repr

/-- One worker round of ExpiryMap.run reaching getExpiryRecords: the timer
armed by setupTimer for the heap minimum can only have fired once the wall
clock has reached a deadline that is at least the current heap minimum
(Register only pushes smaller deadlines after arming, and the armed delay
is floored at zero), so draining is enabled exactly when the clock has
passed the heap minimum.  The minimum is popped; if its bucket is still
tracked, the bucket is detached and reported, otherwise nothing is
reported. -/
def drain (s : EState K) : EState K × Option (Report K) :=
  match heapMin s.heap with
  | none => (s, none)
  | some m =>
    if m ≤ s.now then
      let s1 : EState K := { s with heap := s.heap.erase m }
      match lookupKey m s.buckets with
      | some set =>
        ({ s1 with buckets := removeKey m s1.buckets }, some ⟨m, set, s.now⟩)
      | none => (s1, none)
    else (s, none)

/-- External events of the expiry system: client registrations and
unregistrations, the wall clock advancing, and a worker drain round. -/
inductive EStep (K : Type)
  | register (k : K) (t : Nat)
  | unregister (h : Nat) (k : K)
  | advance (d : Nat)
  | drain

/-- One labelled transition. -/
def stepE (B : Nat) (s : EState K) : EStep K → EState K × Option (Report K)
  | .register k t => (register B s k t, none)
  | .unregister h k => (unregister s h k, none)
  | .advance d => ({ s with now := s.now + d }, none)
  | .drain => drain s

/-- Run a trace of events, collecting every report in order. -/
def runE (B : Nat) (s : EState K) : List (EStep K) → EState K × List (Report K)
  | [] => (s, [])
  | e :: tr =>
    let p := stepE B s e
    let q := runE B p.1 tr
    (q.1, p.2.toList ++ q.2)

/-- Whether an event registers key k. -/
def isRegisterOf (k : K) : EStep K → Prop
  | .register k2 _ => k2 = k
  | _ => False

instance (k : K) (e : EStep K) : Decidable (isRegisterOf k e) := by
  cases e <;> simp [isRegisterOf] <;> infer_instance

end expiry

/-! Helper lemmas about the association-list embedding of Go maps. -/

section assoclemmas

variable {K V : Type} [DecidableEq K]

theorem lookupKey_removeKey_ne (a k : K) (l : List (K × V)) (h : a ≠ k) :
    lookupKey k (removeKey a l) = lookupKey k l := by
  induction l with
  | nil => rfl
  | cons e es ih =>
    by_cases he : e.1 = a
    · have hek : ¬ e.1 = k := by rw [he]; exact h
      simp [removeKey, lookupKey, he, hek, h]
    · by_cases hk : e.1 = k <;>
        simp [removeKey, lookupKey, he, hk, h, Ne.symm h, ih]

theorem lookupKey_eq_none_iff (k : K) (l : List (K × V)) :
    lookupKey k l = none ↔ k ∉ keysOf l := by
  induction l with
  | nil => simp [lookupKey, keysOf]
  | cons e es ih =>
    rw [keysOf, List.map_cons]
    by_cases hk : e.1 = k
    · simp [lookupKey, hk]
    · simp only [lookupKey, if_neg hk, List.mem_cons, ih, keysOf]
      constructor
      · intro hn hc
        rcases hc with hc | hc
        · exact hk hc.symm
        · exact hn hc
      · intro hn hc
        exact hn (Or.inr hc)

theorem lookupKey_mem (k : K) (v : V) (l : List (K × V))
    (h : lookupKey k l = some v) : (k, v) ∈ l := by
  induction l with
  | nil => simp [lookupKey] at h
  | cons e es ih =>
    by_cases hk : e.1 = k
    · simp only [lookupKey, if_pos hk, Option.some.injEq] at h
      have he : (k, v) = e := by
        rw [Prod.ext_iff]
        exact ⟨hk.symm, h.symm⟩
      rw [he]
      exact List.mem_cons_self _ _
    · simp only [lookupKey, if_neg hk] at h
      exact List.mem_cons_of_mem _ (ih h)

theorem mem_lookupKey (k : K) (v : V) (l : List (K × V))
    (hnd : (keysOf l).Nodup) (h : (k, v) ∈ l) : lookupKey k l = some v := by
  induction l with
  | nil => simp at h
  | cons e es ih =>
    rw [keysOf, List.map_cons, List.nodup_cons] at hnd
    rcases List.mem_cons.1 h with h1 | h1
    · rw [← h1]
      simp [lookupKey]
    · have hk : e.1 ≠ k := by
        intro he
        apply hnd.1
        rw [he]
        exact List.mem_map.2 ⟨(k, v), h1, rfl⟩
      simp only [lookupKey, if_neg hk]
      exact ih hnd.2 h1

theorem removeKey_of_not_mem (k : K) (l : List (K × V))
    (h : k ∉ keysOf l) : removeKey k l = l := by
  induction l with
  | nil => rfl
  | cons e es ih =>
    rw [keysOf, List.map_cons] at h
    have h1 : ¬ e.1 = k := fun he => h (by rw [he]; exact List.mem_cons_self _ _)
    have h2 : k ∉ keysOf es := fun hm => h (List.mem_cons_of_mem _ hm)
    rw [removeKey, if_neg h1, ih h2]

theorem keysOf_removeKey_sub (a k : K) (l : List (K × V))
    (h : k ∈ keysOf (removeKey a l)) : k ∈ keysOf l := by
  induction l with
  | nil => simpa [removeKey] using h
  | cons e es ih =>
    by_cases he : e.1 = a
    · rw [removeKey, if_pos he] at h
      exact List.mem_cons_of_mem _ h
    · rw [removeKey, if_neg he, keysOf, List.map_cons] at h
      rw [keysOf, List.map_cons]
      rcases List.mem_cons.1 h with h1 | h1
      · exact List.mem_cons.2 (Or.inl h1)
      · exact List.mem_cons.2 (Or.inr (ih h1))

theorem nodup_removeKey (a : K) (l : List (K × V))
    (h : (keysOf l).Nodup) : (keysOf (removeKey a l)).Nodup := by
  induction l with
  | nil => simpa [removeKey] using h
  | cons e es ih =>
    rw [keysOf, List.map_cons, List.nodup_cons] at h
    by_cases he : e.1 = a
    · rw [removeKey, if_pos he]
      exact h.2
    · rw [removeKey, if_neg he, keysOf, List.map_cons, List.nodup_cons]
      refine ⟨fun hm => ?_, ih h.2⟩
      exact h.1 (keysOf_removeKey_sub a e.1 es hm)

theorem not_mem_keysOf_removeKey (a : K) (l : List (K × V))
    (h : (keysOf l).Nodup) : a ∉ keysOf (removeKey a l) := by
  induction l with
  | nil => simp [removeKey, keysOf]
  | cons e es ih =>
    rw [keysOf, List.map_cons, List.nodup_cons] at h
    by_cases he : e.1 = a
    · rw [removeKey, if_pos he]
      intro hm
      rw [he] at h
      exact h.1 hm
    · rw [removeKey, if_neg he, keysOf, List.map_cons]
      intro hm
      rcases List.mem_cons.1 hm with h1 | h1
      · exact he h1.symm
      · exact ih h.2 h1

theorem lookupKey_removeKey_self (a : K) (l : List (K × V))
    (h : (keysOf l).Nodup) : lookupKey a (removeKey a l) = none :=
  (lookupKey_eq_none_iff a _).2 (not_mem_keysOf_removeKey a l h)

theorem length_removeKey_of_mem (k : K) (l : List (K × V))
    (h : k ∈ keysOf l) : (removeKey k l).length + 1 = l.length := by
  induction l with
  | nil => simp [keysOf] at h
  | cons e es ih =>
    by_cases he : e.1 = k
    · rw [removeKey, if_pos he, List.length_cons]
    · rw [keysOf, List.map_cons] at h
      rcases List.mem_cons.1 h with h1 | h1
      · exact absurd h1.symm he
      · rw [removeKey, if_neg he, List.length_cons, List.length_cons, ih h1]

theorem length_removeKey_le (k : K) (l : List (K × V)) :
    (removeKey k l).length ≤ l.length := by
  induction l with
  | nil => simp [removeKey]
  | cons e es ih =>
    by_cases he : e.1 = k
    · rw [removeKey, if_pos he, List.length_cons]
      exact Nat.le_succ _
    · rw [removeKey, if_neg he, List.length_cons, List.length_cons]
      exact Nat.succ_le_succ ih

theorem removeKey_getLast_eq_dropLast (l : List (K × V)) (hne : l ≠ [])
    (hnd : (keysOf l).Nodup) :
    removeKey (l.getLast hne).1 l = l.dropLast := by
  induction l with
  | nil => exact absurd rfl hne
  | cons e es ih =>
    cases es with
    | nil => simp [removeKey, List.getLast]
    | cons f fs =>
      rw [keysOf, List.map_cons, List.nodup_cons] at hnd
      have hlast : (e :: f :: fs).getLast hne = (f :: fs).getLast (by simp) := by
        simp [List.getLast]
      have hmem : ((f :: fs).getLast (by simp)) ∈ f :: fs := List.getLast_mem _
      have hne2 : ¬ e.1 = ((e :: f :: fs).getLast hne).1 := by
        rw [hlast]
        intro heq
        apply hnd.1
        rw [heq]
        exact List.mem_map.2 ⟨_, hmem, rfl⟩
      rw [removeKey, if_neg hne2]
      rw [hlast, ih (by simp) hnd.2]
      rfl

end assoclemmas

/-! Per-operation facts about the LRU cache. -/

namespace lru

variable {K V : Type} [DecidableEq K]

theorem step_capacity (s : Cache K V) (op : Op K V) :
    ((s.step op).2).capacity = s.capacity := by
  cases op <;>
    simp only [Cache.step, Cache.Put, Cache.Get, Cache.Delete, Cache.Reset,
      Cache.Shutdown] <;>
    (repeat' split) <;> rfl

theorem lookupKey_some_mem_keys (k : K) (v : V) (l : List (K × V))
    (h : lookupKey k l = some v) : k ∈ keysOf l := by
  by_contra hn
  rw [(lookupKey_eq_none_iff k l).2 hn] at h
  cases h

theorem step_size_le (s : Cache K V) (op : Op K V)
    (hc : 0 < s.capacity) (h : s.entries.length ≤ s.capacity) :
    ((s.step op).2).entries.length ≤ s.capacity := by
  cases op with
  | put k v =>
    by_cases hs : s.isShutdown
    · simpa [Cache.step, Cache.Put, hs] using h
    · cases hl : lookupKey k s.entries with
      | some v0 =>
        have hm := lookupKey_some_mem_keys k v0 s.entries hl
        simp only [Cache.step, Cache.Put, hs, Bool.false_eq_true, if_false, hl,
          List.length_cons]
        rw [length_removeKey_of_mem k s.entries hm]
        exact h
      | none =>
        by_cases hfull : s.entries.length = s.capacity
        · cases hgl : s.entries.getLast? with
          | none =>
            rw [List.getLast?_eq_none_iff] at hgl
            rw [hgl] at hfull
            simp at hfull
            omega
          | some e0 =>
            have hexp : ((s.step (Op.put k v)).2).entries.length = s.entries.length := by
              simp only [Cache.step, Cache.Put, hs, Bool.false_eq_true, if_false, hl]
              rw [if_pos hfull, hgl]
              simp only [List.length_cons, List.length_dropLast]
              omega
            omega
        · simp only [Cache.step, Cache.Put, hs, Bool.false_eq_true, if_false,
            hl, hfull, if_neg hfull, List.length_cons]
          omega
  | get k =>
    by_cases hs : s.isShutdown
    · simpa [Cache.step, Cache.Get, hs] using h
    · cases hl : lookupKey k s.entries with
      | some v0 =>
        have hm := lookupKey_some_mem_keys k v0 s.entries hl
        simp only [Cache.step, Cache.Get, hs, Bool.false_eq_true, if_false, hl,
          List.length_cons]
        rw [length_removeKey_of_mem k s.entries hm]
        exact h
      | none => simpa [Cache.step, Cache.Get, hs, hl] using h
  | del k =>
    by_cases hs : s.isShutdown
    · simpa [Cache.step, Cache.Delete, hs] using h
    · cases hl : lookupKey k s.entries with
      | some v0 =>
        simp only [Cache.step, Cache.Delete, hs, Bool.false_eq_true, if_false, hl]
        exact le_trans (length_removeKey_le k s.entries) h
      | none => simpa [Cache.step, Cache.Delete, hs, hl] using h
  | reset =>
    by_cases hs : s.isShutdown <;> simpa [Cache.step, Cache.Reset, hs] using h
  | shutdown =>
    by_cases hs : s.isShutdown <;> simp [Cache.step, Cache.Shutdown, hs] <;> omega

theorem foldl_size_le (ops : List (Op K V)) (c : Nat) (hc : 0 < c) :
    ∀ s : Cache K V, s.capacity = c → s.entries.length ≤ c →
      (ops.foldl (fun s op => (s.step op).2) s).capacity = c ∧
      (ops.foldl (fun s op => (s.step op).2) s).entries.length ≤ c := by
  induction ops with
  | nil => exact fun s h1 h2 => ⟨h1, h2⟩
  | cons op tr ih =>
    intro s h1 h2
    rw [List.foldl_cons]
    refine ih _ (by rw [step_capacity, h1]) ?_
    have := step_size_le s op (by omega) (by omega)
    omega

end lru

/-- Claim C5: from construction with capacity C > 0, after any sequence of
operations the cache size never exceeds the capacity: the final state has
at most C entries, and on an Active engine Size() is at most Capacity(). -/
theorem C5_size_le_capacity {K V : Type} [DecidableEq K] (c : Nat) (hc : 0 < c)
    (ops : List (lru.Op K V)) :
    (lru.runOps c ops).entries.length ≤ c ∧
    ((lru.runOps c ops).SizeOp).1 ≤ ((lru.runOps c ops).CapacityOp).1 := by
  obtain ⟨h1, h2⟩ :=
    lru.foldl_size_le ops c hc (lru.Cache.new c) rfl (by simp [lru.Cache.new])
  have h3 : (lru.runOps c ops).capacity = c := h1
  have h4 : (lru.runOps c ops).entries.length ≤ c := h2
  refine ⟨h4, ?_⟩
  by_cases hs : (lru.runOps c ops).isShutdown
  · simp [lru.Cache.SizeOp, lru.Cache.CapacityOp, hs]
  · simp [lru.Cache.SizeOp, lru.Cache.CapacityOp, hs]
    omega

/-- Witness for C5 at a concrete trace. -/
theorem C5_size_le_capacity_witness :
    (lru.runOps 2 [lru.Op.put 1 10, lru.Op.put 2 20, lru.Op.put 3 30] :
        lru.Cache Nat Nat).entries.length ≤ 2 ∧
    ((lru.runOps 2 [lru.Op.put 1 10, lru.Op.put 2 20, lru.Op.put 3 30] :
        lru.Cache Nat Nat).SizeOp).1 ≤
      ((lru.runOps 2 [lru.Op.put 1 10, lru.Op.put 2 20, lru.Op.put 3 30] :
        lru.Cache Nat Nat).CapacityOp).1 :=
  C5_size_le_capacity 2 (by decide) [lru.Op.put 1 10, lru.Op.put 2 20, lru.Op.put 3 30]

namespace lru

variable {K V : Type} [DecidableEq K]

theorem shutdown_flag (s : Cache K V) : (s.Shutdown).2.isShutdown = true := by
  by_cases hs : s.isShutdown <;> simp [Cache.Shutdown, hs]

end lru

/-- Claim C10: Put on a shutdown lru.Cache returns nil (no ShutdownError),
stores nothing, evicts nothing and invokes no callback, while Get, Delete,
Size, Capacity, Reset and Traverse all report a ShutdownError after
Shutdown. -/
theorem C10_put_after_shutdown {K V : Type} [DecidableEq K]
    (s : lru.Cache K V) (k : K) (v : V) (fn : K → V → Bool) :
    ((s.Shutdown).2.Put k v).err = none ∧
    ((s.Shutdown).2.Put k v).evicted = [] ∧
    ((s.Shutdown).2.Put k v).st = (s.Shutdown).2 ∧
    ((s.Shutdown).2.Get k).err = some lru.CacheErr.shutdownError ∧
    ((s.Shutdown).2.Delete k).err = some lru.CacheErr.shutdownError ∧
    ((s.Shutdown).2.SizeOp).2 = some lru.CacheErr.shutdownError ∧
    ((s.Shutdown).2.CapacityOp).2 = some lru.CacheErr.shutdownError ∧
    ((s.Shutdown).2.Reset).err = some lru.CacheErr.shutdownError ∧
    ((s.Shutdown).2.Traverse fn).2 = some lru.CacheErr.shutdownError := by
  have hs := lru.shutdown_flag s
  simp [lru.Cache.Put, lru.Cache.Get, lru.Cache.Delete, lru.Cache.SizeOp,
    lru.Cache.CapacityOp, lru.Cache.Reset, lru.Cache.Traverse, hs]

/-- Claim C4 counterexample: on a shutdown engine, Delete is reported as a
failure — it returns a ShutdownError, not a nil error as the claim states. -/
theorem C4_counterexample :
    ¬ ((((lru.Cache.new 1 : lru.Cache Nat Nat).Shutdown).2.Delete 0).err = none) := by
  decide

/-- Claim C4 (amended): Delete on a shutdown engine removes no entry,
invokes no eviction callback and leaves the state unchanged, but reports
the failure with a ShutdownError (found=false). -/
theorem C4_delete_after_shutdown {K V : Type} [DecidableEq K]
    (s : lru.Cache K V) (k : K) :
    ((s.Shutdown).2.Delete k).found = false ∧
    ((s.Shutdown).2.Delete k).evicted = [] ∧
    ((s.Shutdown).2.Delete k).st = (s.Shutdown).2 ∧
    ((s.Shutdown).2.Delete k).err = some lru.CacheErr.shutdownError := by
  have hs := lru.shutdown_flag s
  simp [lru.Cache.Delete, hs]

/-- Claim C3 evaluation at the failing input: with an eviction callback
that panics (payload 7), Delete of a present key completes the removal but
the callback's panic escapes to Delete's caller — List.OnEvict calls
recover() outside any deferred function, where the Go specification makes
it return nil, so nothing is caught.  This contradicts both the claim and
the code's own logging intent. -/
theorem C3_panic_propagates :
    (lru.deleteWithCallback (lru.runOps 1 [lru.Op.put 0 0] : lru.Cache Nat Nat)
        (some fun _ _ => (Except.error 7 : Except Nat Unit)) 0).2 =
      internal.GoResult.panicked 7 ∧
    (lru.deleteWithCallback (lru.runOps 1 [lru.Op.put 0 0] : lru.Cache Nat Nat)
        (some fun _ _ => (Except.error 7 : Except Nat Unit)) 0).1.found = true := by
  constructor <;> rfl

namespace lru

variable {K V : Type} [DecidableEq K]

theorem step_count (s : Cache K V) (op : Op K V) :
    (s.step op).1.length + ((s.step op).2).entries.length =
      insertedFlag s op + s.entries.length := by
  cases op with
  | put k v =>
    by_cases hs : s.isShutdown
    · simp [Cache.step, Cache.Put, insertedFlag, hs]
    · cases hl : lookupKey k s.entries with
      | some v0 =>
        have hm := lookupKey_some_mem_keys k v0 s.entries hl
        simp only [Cache.step, Cache.Put, insertedFlag, hs, Bool.false_eq_true,
          if_false, hl, List.length_cons, List.length_nil]
        rw [length_removeKey_of_mem k s.entries hm]
      | none =>
        by_cases hfull : s.entries.length = s.capacity
        · cases hgl : s.entries.getLast? with
          | none =>
            rw [List.getLast?_eq_none_iff] at hgl
            simp only [Cache.step, Cache.Put, insertedFlag, hs, Bool.false_eq_true,
              if_false, hl]
            rw [if_pos hfull, List.getLast?_eq_none_iff.2 hgl]
            simp [hgl]
          | some e0 =>
            have hne : s.entries ≠ [] := by
              intro he
              rw [he] at hgl
              cases hgl
            simp only [Cache.step, Cache.Put, insertedFlag, hs, Bool.false_eq_true,
              if_false, hl]
            rw [if_pos hfull, hgl]
            simp only [List.length_cons, List.length_dropLast, List.length_nil]
            have hpos : 0 < s.entries.length := List.length_pos.2 hne
            omega
        · simp only [Cache.step, Cache.Put, insertedFlag, hs, Bool.false_eq_true,
            if_false, hl]
          rw [if_neg hfull]
          simp only [List.length_cons, List.length_nil]
          omega
  | get k =>
    by_cases hs : s.isShutdown
    · simp [Cache.step, Cache.Get, insertedFlag, hs]
    · cases hl : lookupKey k s.entries with
      | some v0 =>
        have hm := lookupKey_some_mem_keys k v0 s.entries hl
        simp only [Cache.step, Cache.Get, insertedFlag, hs, Bool.false_eq_true,
          if_false, hl, List.length_cons, List.length_nil]
        rw [length_removeKey_of_mem k s.entries hm]
      | none => simp [Cache.step, Cache.Get, insertedFlag, hs, hl]
  | del k =>
    by_cases hs : s.isShutdown
    · simp [Cache.step, Cache.Delete, insertedFlag, hs]
    · cases hl : lookupKey k s.entries with
      | some v0 =>
        have hm := lookupKey_some_mem_keys k v0 s.entries hl
        simp only [Cache.step, Cache.Delete, insertedFlag, hs, Bool.false_eq_true,
          if_false, hl, List.length_cons, List.length_singleton, List.length_nil]
        rw [← length_removeKey_of_mem k s.entries hm]
        omega
      | none => simp [Cache.step, Cache.Delete, insertedFlag, hs, hl]
  | reset =>
    by_cases hs : s.isShutdown <;>
      simp [Cache.step, Cache.Reset, insertedFlag, hs]
  | shutdown =>
    by_cases hs : s.isShutdown <;>
      simp [Cache.step, Cache.Shutdown, insertedFlag, hs]

theorem foldl_count (ops : List (Op K V)) :
    ∀ (s : Cache K V) (a b : Nat), a + s.entries.length = b →
      (ops.foldl
        (fun p op =>
          ((p.1.step op).2, p.2.1 + (p.1.step op).1.length, p.2.2 + insertedFlag p.1 op))
        (s, a, b)).2.1 +
      (ops.foldl
        (fun p op =>
          ((p.1.step op).2, p.2.1 + (p.1.step op).1.length, p.2.2 + insertedFlag p.1 op))
        (s, a, b)).1.entries.length =
      (ops.foldl
        (fun p op =>
          ((p.1.step op).2, p.2.1 + (p.1.step op).1.length, p.2.2 + insertedFlag p.1 op))
        (s, a, b)).2.2 := by
  induction ops with
  | nil => intro s a b h; simpa using h
  | cons op tr ih =>
    intro s a b h
    rw [List.foldl_cons]
    refine ih _ _ _ ?_
    dsimp only
    have := step_count s op
    omega

theorem put_at_capacity (s : Cache K V) (k : K) (v : V)
    (hs : s.isShutdown = false) (habs : lookupKey k s.entries = none)
    (hfull : s.entries.length = s.capacity) (hne : s.entries ≠ [])
    (hnd : (keysOf s.entries).Nodup) :
    (s.Put k v).evicted = [s.entries.getLast hne] ∧
    (s.Put k v).st.entries = (k, v) :: s.entries.dropLast ∧
    lookupKey (s.entries.getLast hne).1 ((s.Put k v).st.entries) = none ∧
    lookupKey k ((s.Put k v).st.entries) = some v ∧
    (s.Put k v).st.entries.length = s.capacity := by
  have hgl : s.entries.getLast? = some (s.entries.getLast hne) :=
    List.getLast?_eq_getLast s.entries hne
  have hput : s.Put k v =
      ⟨none, [s.entries.getLast hne],
        { s with entries := (k, v) :: s.entries.dropLast }⟩ := by
    rw [Cache.Put, if_neg (by rw [hs]; simp), habs]
    rw [if_pos hfull, hgl]
  have hkne : (s.entries.getLast hne).1 ≠ k := by
    intro he
    have hm : (s.entries.getLast hne) ∈ s.entries := List.getLast_mem hne
    have : k ∈ keysOf s.entries := by
      rw [← he]
      exact List.mem_map.2 ⟨_, hm, rfl⟩
    exact (lookupKey_eq_none_iff k s.entries).1 habs this
  rw [hput]
  refine ⟨rfl, rfl, ?_, ?_, ?_⟩
  · rw [show ((k, v) :: s.entries.dropLast) =
        ((k, v) :: removeKey (s.entries.getLast hne).1 s.entries) from by
      rw [removeKey_getLast_eq_dropLast s.entries hne hnd]]
    rw [lookupKey, if_neg (by intro hh; exact hkne hh.symm)]
    exact lookupKey_removeKey_self _ _ hnd
  · rw [lookupKey, if_pos rfl]
  · simp only [List.length_cons, List.length_dropLast]
    have : 0 < s.entries.length := List.length_pos.2 hne
    omega

end lru

/-- Claim C2: over any operation sequence, the total number of
eviction-callback invocations equals the total number of entries removed
(counted independently: insertions minus the entries still present), and a
Put of a new key at capacity removes the back entry from index and
container — it is no longer associated — and installs the new entry at the
front, invoking the callback exactly once with the evicted pair. -/
theorem C2_callback_accounting {K V : Type} [DecidableEq K] :
    (∀ (c : Nat) (ops : List (lru.Op K V)),
      (lru.runCount c ops).2.1 + (lru.runCount c ops).1.entries.length =
        (lru.runCount c ops).2.2) ∧
    (∀ (s : lru.Cache K V) (k : K) (v : V)
      (hs : s.isShutdown = false) (habs : lookupKey k s.entries = none)
      (hfull : s.entries.length = s.capacity) (hne : s.entries ≠ [])
      (hnd : (keysOf s.entries).Nodup),
      (s.Put k v).evicted = [s.entries.getLast hne] ∧
      (s.Put k v).st.entries = (k, v) :: s.entries.dropLast ∧
      lookupKey (s.entries.getLast hne).1 ((s.Put k v).st.entries) = none ∧
      lookupKey k ((s.Put k v).st.entries) = some v ∧
      (s.Put k v).st.entries.length = s.capacity) := by
  constructor
  · intro c ops
    exact lru.foldl_count ops (lru.Cache.new c) 0 0 (by simp [lru.Cache.new])
  · intro s k v hs habs hfull hne hnd
    exact lru.put_at_capacity s k v hs habs hfull hne hnd

/-- Witness for C2: the conservation law on a concrete trace and the
capacity-eviction structure on a concrete full cache. -/
theorem C2_callback_accounting_witness :
    ((lru.runCount 2 [lru.Op.put 1 10, lru.Op.put 2 20, lru.Op.put 3 30,
        lru.Op.del 2, lru.Op.reset] : lru.Cache Nat Nat × Nat × Nat).2.1 +
      (lru.runCount 2 [lru.Op.put 1 10, lru.Op.put 2 20, lru.Op.put 3 30,
        lru.Op.del 2, lru.Op.reset]).1.entries.length =
      (lru.runCount 2 [lru.Op.put 1 10, lru.Op.put 2 20, lru.Op.put 3 30,
        lru.Op.del 2, lru.Op.reset]).2.2) ∧
    (((⟨false, 2, [(2, 20), (1, 10)]⟩ : lru.Cache Nat Nat).Put 3 30).evicted =
        [((⟨false, 2, [(2, 20), (1, 10)]⟩ : lru.Cache Nat Nat).entries.getLast
          (by decide))] ∧
      ((⟨false, 2, [(2, 20), (1, 10)]⟩ : lru.Cache Nat Nat).Put 3 30).st.entries =
        (3, 30) :: [(2, 20), (1, 10)].dropLast ∧
      lookupKey (((⟨false, 2, [(2, 20), (1, 10)]⟩ :
          lru.Cache Nat Nat).entries.getLast (by decide)).1)
        (((⟨false, 2, [(2, 20), (1, 10)]⟩ : lru.Cache Nat Nat).Put 3 30).st.entries) =
        none ∧
      lookupKey 3
        (((⟨false, 2, [(2, 20), (1, 10)]⟩ : lru.Cache Nat Nat).Put 3 30).st.entries) =
        some 30 ∧
      ((⟨false, 2, [(2, 20), (1, 10)]⟩ : lru.Cache Nat Nat).Put 3 30).st.entries.length =
        (⟨false, 2, [(2, 20), (1, 10)]⟩ : lru.Cache Nat Nat).capacity) :=
  ⟨(C2_callback_accounting (K := Nat) (V := Nat)).1 2
      [lru.Op.put 1 10, lru.Op.put 2 20, lru.Op.put 3 30, lru.Op.del 2, lru.Op.reset],
    (C2_callback_accounting (K := Nat) (V := Nat)).2
      (⟨false, 2, [(2, 20), (1, 10)]⟩ : lru.Cache Nat Nat) 3 30 rfl (by decide)
      (by decide) (by decide) (by decide)⟩

/-! Shard-count derivation of src/shard/options.go. -/

namespace shardopts

theorem le_nextPowerOfTwo (n : Nat) : n ≤ nextPowerOfTwo n := by
  rw [nextPowerOfTwo]
  by_cases h : n ≤ 1
  · rw [if_pos h]; omega
  · rw [if_neg h, bitsLen]
    have := Nat.lt_size_self (n - 1)
    omega

theorem nextPowerOfTwo_pos (n : Nat) : 0 < nextPowerOfTwo n := by
  rw [nextPowerOfTwo]
  split
  · omega
  · exact Nat.pos_pow_of_pos _ (by omega)

theorem nextPowerOfTwo_isPow (n : Nat) : ∃ k, nextPowerOfTwo n = 2 ^ k := by
  rw [nextPowerOfTwo]
  split
  · exact ⟨0, rfl⟩
  · exact ⟨_, rfl⟩

theorem size_two_pow_sub_one (k : Nat) (hk : 0 < k) : (2 ^ k - 1).size = k := by
  have hpos : 0 < 2 ^ k := Nat.pos_pow_of_pos _ (by omega)
  have h1 : (2 ^ k - 1).size ≤ k := Nat.size_le.2 (by omega)
  have h2 : k - 1 < (2 ^ k - 1).size := by
    refine Nat.lt_size.2 ?_
    have hmul : 2 ^ (k - 1) * 2 = 2 ^ k := by
      rw [← pow_succ]
      congr 1
      omega
    have hp1 : 0 < 2 ^ (k - 1) := Nat.pos_pow_of_pos _ (by omega)
    omega
  omega

theorem nextPowerOfTwo_pow (k : Nat) : nextPowerOfTwo (2 ^ k) = 2 ^ k := by
  rw [nextPowerOfTwo]
  by_cases h : 2 ^ k ≤ 1
  · have hk : k = 0 := by
      by_contra hk
      have : 2 ^ 1 ≤ 2 ^ k := Nat.pow_le_pow_right (by omega) (by omega)
      simp at this
      omega
    rw [if_pos h, hk]
    rfl
  · rw [if_neg h, bitsLen]
    have hk : 0 < k := by
      by_contra hk
      have : k = 0 := by omega
      rw [this] at h
      simp at h
    rw [size_two_pow_sub_one k hk]

theorem nextPowerOfTwo_min256 (raw : Nat) :
    nextPowerOfTwo (min (nextPowerOfTwo raw) 256) = min (nextPowerOfTwo raw) 256 := by
  obtain ⟨k, hk⟩ := nextPowerOfTwo_isPow raw
  rw [hk]
  rcases le_total (2 ^ k) 256 with h | h
  · rw [min_eq_left h, nextPowerOfTwo_pow]
  · rw [min_eq_right h, show (256 : Nat) = 2 ^ 8 from rfl, nextPowerOfTwo_pow]

theorem computeMaxshards_isPow (c t m u : Nat) :
    ∃ k, computeMaxshards c t m u = 2 ^ k := by
  rw [computeMaxshards]
  exact nextPowerOfTwo_isPow _

theorem computeMaxshards_pos (c t m u : Nat) : 0 < computeMaxshards c t m u := by
  rw [computeMaxshards]
  exact nextPowerOfTwo_pos _

theorem ceil_mul_ge (c t : Nat) (ht : 0 < t) : c ≤ t * ((c + t - 1) / t) := by
  have h := Nat.div_add_mod (c + t - 1) t
  have hm := Nat.mod_lt (c + t - 1) ht
  omega

theorem ceil_le_of_le_mul (c s t : Nat) (hs : 0 < s) (h : c ≤ s * t) :
    (c + s - 1) / s ≤ t := by
  rw [Nat.div_le_iff_le_mul_add_pred hs]
  omega

theorem minShards_zero_eval (capacity targetPerShard cpuCount : Nat)
    (hcpu : 0 < cpuCount) :
    computeMaxshards capacity targetPerShard 0 cpuCount =
      min (nextPowerOfTwo
        (max ((capacity + targetPerShard - 1) / targetPerShard) (cpuCount * 4))) 256 := by
  rw [computeMaxshards]
  simp only [if_pos rfl]
  rw [if_neg (by omega : ¬ cpuCount = 0)]
  by_cases ht : targetPerShard > 0
  · rw [if_pos ht]
    exact nextPowerOfTwo_min256 _
  · rw [if_neg ht]
    have h0 : targetPerShard = 0 := by omega
    rw [h0]
    simp only [Nat.add_zero, Nat.div_zero]
    exact nextPowerOfTwo_min256 _

end shardopts

/-- Claim C6 counterexample: capacity 1000000, targetPerShard 1, no explicit
minimum, one CPU.  targetPerShard is positive and the CPU-based floor does
not dominate (4 ≤ ceil(capacity/targetPerShard) = 1000000), yet the derived
shard count is capped at 256 and ceil(capacity/shardCount) = 3907 > 1, so
the claimed bound ceil(capacity/shardCount) ≤ targetPerShard fails. -/
theorem C6_counterexample :
    (0 : Nat) < 1 ∧
    (1 : Nat) * 4 ≤ (1000000 + 1 - 1) / 1 ∧
    ¬ ((1000000 + shardopts.computeMaxshards 1000000 1 0 1 - 1) /
        shardopts.computeMaxshards 1000000 1 0 1 ≤ 1) := by
  have hsize : Nat.size 999999 = 20 := by
    have h1 : Nat.size 999999 ≤ 20 := Nat.size_le.2 (by norm_num)
    have h2 : 19 < Nat.size 999999 := Nat.lt_size.2 (by norm_num)
    omega
  have hnp : shardopts.nextPowerOfTwo 1000000 = 2 ^ 20 := by
    rw [shardopts.nextPowerOfTwo, if_neg (by norm_num), shardopts.bitsLen]
    rw [show (1000000 : Nat) - 1 = 999999 from rfl, hsize]
  have hcm : shardopts.computeMaxshards 1000000 1 0 1 = 256 := by
    rw [shardopts.minShards_zero_eval 1000000 1 1 (by norm_num)]
    rw [show (1000000 + 1 - 1) / 1 = 1000000 from by norm_num]
    rw [show max (1000000 : Nat) (1 * 4) = 1000000 from by norm_num, hnp]
    norm_num
  rw [hcm]
  norm_num

/-- Claim C6 (amended): with no explicit minimum and cpuCount ≥ 1, the
derived shard count equals max(ceil(capacity/targetPerShard), cpuCount*4)
rounded up to the next power of two and capped at 256; it is always a power
of two and at least 1; and ceil(capacity/shardCount) ≤ targetPerShard
whenever targetPerShard > 0, the CPU-based floor did not dominate, and the
256 cap did not bind (the rounded-up capacity-based count is ≤ 256). -/
theorem C6_shard_count (capacity targetPerShard cpuCount : Nat)
    (hcpu : 0 < cpuCount) :
    (shardopts.computeMaxshards capacity targetPerShard 0 cpuCount =
      min (shardopts.nextPowerOfTwo
        (max ((capacity + targetPerShard - 1) / targetPerShard) (cpuCount * 4))) 256) ∧
    (∃ k, shardopts.computeMaxshards capacity targetPerShard 0 cpuCount = 2 ^ k) ∧
    (0 < shardopts.computeMaxshards capacity targetPerShard 0 cpuCount) ∧
    (0 < targetPerShard →
      cpuCount * 4 ≤ (capacity + targetPerShard - 1) / targetPerShard →
      shardopts.nextPowerOfTwo ((capacity + targetPerShard - 1) / targetPerShard) ≤ 256 →
      (capacity + shardopts.computeMaxshards capacity targetPerShard 0 cpuCount - 1) /
        shardopts.computeMaxshards capacity targetPerShard 0 cpuCount ≤ targetPerShard) := by
  refine ⟨shardopts.minShards_zero_eval capacity targetPerShard cpuCount hcpu,
    shardopts.computeMaxshards_isPow _ _ _ _,
    shardopts.computeMaxshards_pos _ _ _ _, ?_⟩
  intro ht hdom hcap
  set r := (capacity + targetPerShard - 1) / targetPerShard with hr
  have hmax : max r (cpuCount * 4) = r := max_eq_left hdom
  have hshards : shardopts.computeMaxshards capacity targetPerShard 0 cpuCount =
      shardopts.nextPowerOfTwo r := by
    rw [shardopts.minShards_zero_eval capacity targetPerShard cpuCount hcpu, ← hr,
      hmax, min_eq_left hcap]
  rw [hshards]
  have hle : r ≤ shardopts.nextPowerOfTwo r := shardopts.le_nextPowerOfTwo r
  have hpos : 0 < shardopts.nextPowerOfTwo r := shardopts.nextPowerOfTwo_pos r
  refine shardopts.ceil_le_of_le_mul _ _ _ hpos ?_
  have h1 : capacity ≤ targetPerShard * r := shardopts.ceil_mul_ge capacity targetPerShard ht
  calc capacity ≤ targetPerShard * r := h1
    _ ≤ targetPerShard * shardopts.nextPowerOfTwo r :=
        Nat.mul_le_mul_left _ hle
    _ = shardopts.nextPowerOfTwo r * targetPerShard := Nat.mul_comm _ _

/-- Witness for C6 at a concrete input: capacity 100, targetPerShard 10,
four CPUs. -/
theorem C6_shard_count_witness :
    (shardopts.computeMaxshards 100 10 0 4 =
      min (shardopts.nextPowerOfTwo (max ((100 + 10 - 1) / 10) (4 * 4))) 256) ∧
    (∃ k, shardopts.computeMaxshards 100 10 0 4 = 2 ^ k) ∧
    (0 < shardopts.computeMaxshards 100 10 0 4) ∧
    (0 < 10 →
      4 * 4 ≤ (100 + 10 - 1) / 10 →
      shardopts.nextPowerOfTwo ((100 + 10 - 1) / 10) ≤ 256 →
      (100 + shardopts.computeMaxshards 100 10 0 4 - 1) /
        shardopts.computeMaxshards 100 10 0 4 ≤ 10) :=
  C6_shard_count 100 10 4 (by norm_num)

/-! The sharded Traverse. -/

namespace shard

variable {K V : Type} [DecidableEq K]

theorem visitList_append (fn : K → V → Bool) (a b : List (K × V)) :
    (lru.visitList fn (a ++ b)).1 =
      if (lru.visitList fn a).2 then (lru.visitList fn a).1
      else (lru.visitList fn a).1 ++ (lru.visitList fn b).1 := by
  induction a with
  | nil => simp [lru.visitList]
  | cons e es ih =>
    by_cases hf : fn e.1 e.2
    · rw [List.cons_append]
      rw [show lru.visitList fn (e :: (es ++ b)) =
          (e :: (lru.visitList fn (es ++ b)).1, (lru.visitList fn (es ++ b)).2) from by
        simp [lru.visitList, hf]]
      rw [show lru.visitList fn (e :: es) =
          (e :: (lru.visitList fn es).1, (lru.visitList fn es).2) from by
        simp [lru.visitList, hf]]
      by_cases hst : (lru.visitList fn es).2 <;> simp [hst, ih]
    · rw [List.cons_append]
      rw [show lru.visitList fn (e :: (es ++ b)) = ([e], true) from by
        simp [lru.visitList, hf]]
      rw [show lru.visitList fn (e :: es) = ([e], true) from by
        simp [lru.visitList, hf]]
      simp

theorem routerGo_eq_spec (fn : K → V → Bool) (shards : List (lru.Cache K V))
    (hsh : ∀ s ∈ shards, s.isShutdown = false) :
    routerGo fn shards = specTraverse fn shards := by
  induction shards with
  | nil => rfl
  | cons s rest ih =>
    have hs : s.isShutdown = false := hsh s (List.mem_cons_self _ _)
    have hrest : ∀ s2 ∈ rest, s2.isShutdown = false :=
      fun s2 h2 => hsh s2 (List.mem_cons_of_mem _ h2)
    rw [routerGo, specTraverse, List.map_cons, List.flatten_cons,
      visitList_append]
    rw [show shardVisit s fn = lru.visitList fn s.entries from by
      rw [shardVisit, hs]; simp]
    rw [ih hrest, specTraverse]

end shard

/-- Claim C7: on a live router with live shards, Traverse visits shards in
their fixed order, entries inside each shard most-recently-used first, and
the visited sequence is exactly the prefix of the concatenation of all
shards' recency lists up to and including the first entry on which fn
returns false — once fn returns false no further entry of any shard,
including later shards, is visited. -/
theorem C7_traverse_stops {K V : Type} [DecidableEq K]
    (r : shard.Router K V) (fn : K → V → Bool)
    (hr : r.isShutdown = false)
    (hsh : ∀ s ∈ r.shards, s.isShutdown = false) :
    r.TraverseVisited fn = shard.specTraverse fn r.shards := by
  rw [shard.Router.TraverseVisited, if_neg (by rw [hr]; simp)]
  exact shard.routerGo_eq_spec fn r.shards hsh

/-- Witness for C7: two shards, fn stops on key 2 inside the first shard;
the second shard's entry is not visited. -/
theorem C7_traverse_stops_witness :
    (shard.Router.TraverseVisited
      ⟨false, [⟨false, 2, [(1, 10), (2, 20)]⟩, ⟨false, 2, [(3, 30)]⟩]⟩
      (fun k _ => k != 2) : List (Nat × Nat)) =
    shard.specTraverse (fun k _ => k != 2)
      [⟨false, 2, [(1, 10), (2, 20)]⟩, ⟨false, 2, [(3, 30)]⟩] :=
  C7_traverse_stops
    ⟨false, [⟨false, 2, [(1, 10), (2, 20)]⟩, ⟨false, 2, [(3, 30)]⟩]⟩
    (fun k _ => k != 2) rfl (by decide)

/-! The expiry engine: bucket and heap bookkeeping. -/

theorem mem_removeKey {K V : Type} [DecidableEq K] (a : K) (p : K × V)
    (l : List (K × V)) (h : p ∈ removeKey a l) : p ∈ l := by
  induction l with
  | nil => simpa [removeKey] using h
  | cons e es ih =>
    by_cases he : e.1 = a
    · rw [removeKey, if_pos he] at h
      exact List.mem_cons_of_mem _ h
    · rw [removeKey, if_neg he] at h
      rcases List.mem_cons.1 h with h1 | h1
      · exact h1 ▸ List.mem_cons_self _ _
      · exact List.mem_cons_of_mem _ (ih h1)

namespace expiry

variable {K : Type} [DecidableEq K]

theorem addKey_ne_nil (k : K) (s : List K) : addKey k s ≠ [] := by
  rw [addKey]
  split
  · intro h
    subst h
    simp_all
  · simp

theorem stepE_preserves (B : Nat) (s : EState K) (e : EStep K)
    (h1 : ∀ p ∈ s.buckets, p.2 ≠ [])
    (h2 : ∀ p ∈ s.buckets, p.1 ∈ s.heap)
    (h3 : (keysOf s.buckets).Nodup) :
    (∀ p ∈ (stepE B s e).1.buckets, p.2 ≠ []) ∧
    (∀ p ∈ (stepE B s e).1.buckets, p.1 ∈ (stepE B s e).1.heap) ∧
    (keysOf (stepE B s e).1.buckets).Nodup := by
  cases e with
  | register k t =>
    simp only [stepE, register]
    cases hlk : lookupKey (bucketOf B t) s.buckets with
    | some set =>
      simp only [hlk]
      have hmem : (bucketOf B t, set) ∈ s.buckets := lookupKey_mem _ _ _ hlk
      refine ⟨?_, ?_, ?_⟩
      · intro p hp
        rcases List.mem_cons.1 hp with hp1 | hp1
        · rw [hp1]
          exact addKey_ne_nil k set
        · exact h1 p (mem_removeKey _ _ _ hp1)
      · intro p hp
        rcases List.mem_cons.1 hp with hp1 | hp1
        · rw [hp1]
          exact h2 (bucketOf B t, set) hmem
        · exact h2 p (mem_removeKey _ _ _ hp1)
      · rw [keysOf, List.map_cons, List.nodup_cons]
        exact ⟨not_mem_keysOf_removeKey _ _ h3, nodup_removeKey _ _ h3⟩
    | none =>
      simp only [hlk]
      have hnk : bucketOf B t ∉ keysOf s.buckets :=
        (lookupKey_eq_none_iff _ _).1 hlk
      refine ⟨?_, ?_, ?_⟩
      · intro p hp
        rcases List.mem_cons.1 hp with hp1 | hp1
        · rw [hp1]
          simp
        · exact h1 p hp1
      · intro p hp
        rcases List.mem_cons.1 hp with hp1 | hp1
        · rw [hp1]
          exact List.mem_cons_self _ _
        · exact List.mem_cons_of_mem _ (h2 p hp1)
      · rw [keysOf, List.map_cons, List.nodup_cons]
        exact ⟨hnk, h3⟩
  | unregister h k =>
    simp only [stepE, unregister]
    cases hlk : lookupKey h s.buckets with
    | some set =>
      simp only [hlk]
      have hmem : (h, set) ∈ s.buckets := lookupKey_mem _ _ _ hlk
      by_cases hemp : (set.erase k).isEmpty
      · rw [if_pos hemp]
        exact ⟨fun p hp => h1 p (mem_removeKey _ _ _ hp),
          fun p hp => h2 p (mem_removeKey _ _ _ hp),
          nodup_removeKey _ _ h3⟩
      · rw [if_neg hemp]
        refine ⟨?_, ?_, ?_⟩
        · intro p hp
          rcases List.mem_cons.1 hp with hp1 | hp1
          · rw [hp1]
            intro hnil
            exact hemp (List.isEmpty_iff.2 hnil)
          · exact h1 p (mem_removeKey _ _ _ hp1)
        · intro p hp
          rcases List.mem_cons.1 hp with hp1 | hp1
          · rw [hp1]
            exact h2 (h, set) hmem
          · exact h2 p (mem_removeKey _ _ _ hp1)
        · rw [keysOf, List.map_cons, List.nodup_cons]
          exact ⟨not_mem_keysOf_removeKey _ _ h3, nodup_removeKey _ _ h3⟩
    | none =>
      simp only [hlk]
      exact ⟨h1, h2, h3⟩
  | advance d =>
    exact ⟨h1, h2, h3⟩
  | drain =>
    simp only [stepE, drain]
    cases hm : heapMin s.heap with
    | none => exact ⟨h1, h2, h3⟩
    | some m =>
      simp only [hm]
      by_cases hnow : m ≤ s.now
      · rw [if_pos hnow]
        cases hlk : lookupKey m s.buckets with
        | some set =>
          simp only [hlk]
          refine ⟨fun p hp => h1 p (mem_removeKey _ _ _ hp), ?_,
            nodup_removeKey _ _ h3⟩
          intro p hp
          have hpm : p.1 ≠ m := by
            intro he
            have hx : p.1 ∈ keysOf (removeKey m s.buckets) :=
              List.mem_map.2 ⟨p, hp, rfl⟩
            rw [he] at hx
            exact not_mem_keysOf_removeKey m s.buckets h3 hx
          exact (List.mem_erase_of_ne hpm).2 (h2 p (mem_removeKey _ _ _ hp))
        | none =>
          simp only [hlk]
          have hnk : m ∉ keysOf s.buckets := (lookupKey_eq_none_iff _ _).1 hlk
          refine ⟨h1, ?_, h3⟩
          intro p hp
          have hpm : p.1 ≠ m := by
            intro he
            exact hnk (he ▸ List.mem_map.2 ⟨p, hp, rfl⟩)
          exact (List.mem_erase_of_ne hpm).2 (h2 p hp)
      · rw [if_neg hnow]
        exact ⟨h1, h2, h3⟩

theorem runE_preserves (B : Nat) (tr : List (EStep K)) :
    ∀ s : EState K,
      (∀ p ∈ s.buckets, p.2 ≠ []) →
      (∀ p ∈ s.buckets, p.1 ∈ s.heap) →
      (keysOf s.buckets).Nodup →
      ((∀ p ∈ (runE B s tr).1.buckets, p.2 ≠ []) ∧
       (∀ p ∈ (runE B s tr).1.buckets, p.1 ∈ (runE B s tr).1.heap) ∧
       (keysOf (runE B s tr).1.buckets).Nodup) := by
  induction tr with
  | nil => exact fun s a b c => ⟨a, b, c⟩
  | cons e tr ih =>
    intro s h1 h2 h3
    obtain ⟨g1, g2, g3⟩ := stepE_preserves B s e h1 h2 h3
    exact ih _ g1 g2 g3

end expiry

/-- Claim C9 counterexample: with bucket width 10, Register(1, at 5) then
Unregister(handle=10, 1) leaves no bucket for deadline 10, yet deadline 10
still appears (once) in the priority queue, so bucket existence is not
equivalent to the deadline appearing exactly once; re-registering at the
same deadline then pushes the deadline a second time while exactly one
bucket exists. -/
theorem C9_counterexample :
    (¬ ((lookupKey 10 ((expiry.runE 10 expiry.init
          [expiry.EStep.register (1 : Nat) 5,
           expiry.EStep.unregister 10 1]).1.buckets) ≠ none) ↔
        ((expiry.runE 10 expiry.init
          [expiry.EStep.register (1 : Nat) 5,
           expiry.EStep.unregister 10 1]).1.heap.count 10 = 1))) ∧
    ((expiry.runE 10 expiry.init
        [expiry.EStep.register (1 : Nat) 5, expiry.EStep.unregister 10 1,
         expiry.EStep.register 1 5]).1.heap.count 10 = 2 ∧
      lookupKey 10 ((expiry.runE 10 expiry.init
        [expiry.EStep.register (1 : Nat) 5, expiry.EStep.unregister 10 1,
         expiry.EStep.register 1 5]).1.buckets) ≠ none) := by
  decide

/-- Claim C9 (amended): in every reachable ExpiryMap state, a bucket exists
iff its key set is non-empty (stored sets are never empty), at most one
bucket exists per deadline, and every existing bucket's deadline appears at
least once in the priority queue; the queue may however retain stale or
duplicated deadlines with no bucket, since Unregister never removes
deadlines from the queue. -/
theorem C9_bucket_heap_invariant {K : Type} [DecidableEq K]
    (B : Nat) (tr : List (expiry.EStep K)) :
    (∀ p ∈ (expiry.runE B expiry.init tr).1.buckets, p.2 ≠ []) ∧
    (∀ p ∈ (expiry.runE B expiry.init tr).1.buckets,
      p.1 ∈ (expiry.runE B expiry.init tr).1.heap) ∧
    (keysOf (expiry.runE B expiry.init tr).1.buckets).Nodup := by
  refine expiry.runE_preserves B tr expiry.init ?_ ?_ ?_ <;>
    simp [expiry.init, keysOf]

/-! Temporal soundness of the expiry engine. -/

namespace expiry

variable {K : Type} [DecidableEq K]

theorem drain_report_le (s : EState K) (r : Report K)
    (h : (drain s).2 = some r) : r.deadline ≤ r.time := by
  rw [drain] at h
  cases hm : heapMin s.heap with
  | none =>
    simp only [hm] at h
    exact Option.noConfusion h
  | some m =>
    simp only [hm] at h
    by_cases hnow : m ≤ s.now
    · rw [if_pos hnow] at h
      cases hlk : lookupKey m s.buckets with
      | some set =>
        simp only [hlk] at h
        simp only [Option.some.injEq] at h
        rw [← h]
        exact hnow
      | none =>
        simp only [hlk] at h
        exact Option.noConfusion h
    · rw [if_neg hnow] at h
      exact Option.noConfusion h

theorem runE_reports_le (B : Nat) (tr : List (EStep K)) :
    ∀ s : EState K, ∀ r ∈ (runE B s tr).2, r.deadline ≤ r.time := by
  induction tr with
  | nil => intro s r hr; simp [runE] at hr
  | cons e tr ih =>
    intro s r hr
    rw [runE] at hr
    rcases List.mem_append.1 hr with h1 | h1
    · cases e with
      | drain =>
        simp only [stepE] at h1
        cases hd : (drain s).2 with
        | none => rw [hd] at h1; simp at h1
        | some r2 =>
          rw [hd] at h1
          simp at h1
          rw [h1]
          exact drain_report_le s r2 hd
      | register k t => simp [stepE] at h1
      | unregister h k => simp [stepE] at h1
      | advance d => simp [stepE] at h1
    · exact ih _ r h1

/-- Key-locality invariant: if every pending registration of k in the
remaining trace lands in bucket(T), and k currently sits only in the
bucket for deadline bucket(T), then this stays true for the whole run, and
every report that contains k is the bucket(T) bucket. -/
theorem runE_k_local (B T : Nat) (k : K) (tr : List (EStep K)) :
    ∀ s : EState K,
      (∀ t2, EStep.register k t2 ∈ tr → bucketOf B t2 = bucketOf B T) →
      (∀ p ∈ s.buckets, p.2.Nodup) →
      (keysOf s.buckets).Nodup →
      (∀ p ∈ s.buckets, k ∈ p.2 → p.1 = bucketOf B T) →
      ((∀ p ∈ (runE B s tr).1.buckets, p.2.Nodup) ∧
       (keysOf (runE B s tr).1.buckets).Nodup ∧
       (∀ p ∈ (runE B s tr).1.buckets, k ∈ p.2 → p.1 = bucketOf B T) ∧
       (∀ r ∈ (runE B s tr).2, k ∈ r.keys → r.deadline = bucketOf B T)) := by
  induction tr with
  | nil =>
    intro s _ h1 h2 h3
    refine ⟨h1, h2, h3, ?_⟩
    intro r hr
    simp [runE] at hr
  | cons e tr ih =>
    intro s hreg h1 h2 h3
    have hreg2 : ∀ t2, EStep.register k t2 ∈ tr → bucketOf B t2 = bucketOf B T :=
      fun t2 ht => hreg t2 (List.mem_cons_of_mem _ ht)
    have hstep : (∀ p ∈ (stepE B s e).1.buckets, p.2.Nodup) ∧
        (keysOf (stepE B s e).1.buckets).Nodup ∧
        (∀ p ∈ (stepE B s e).1.buckets, k ∈ p.2 → p.1 = bucketOf B T) ∧
        (∀ r, (stepE B s e).2 = some r → k ∈ r.keys → r.deadline = bucketOf B T) := by
      cases e with
      | register k2 t =>
        simp only [stepE, register]
        cases hlk : lookupKey (bucketOf B t) s.buckets with
        | some set =>
          simp only [hlk]
          have hmem : (bucketOf B t, set) ∈ s.buckets := lookupKey_mem _ _ _ hlk
          refine ⟨?_, ?_, ?_, fun r hr => by cases hr⟩
          · intro p hp
            rcases List.mem_cons.1 hp with hp1 | hp1
            · rw [hp1, addKey]
              split
              · exact h1 _ hmem
              · exact List.nodup_cons.2 ⟨by assumption, h1 _ hmem⟩
            · exact h1 p (mem_removeKey _ _ _ hp1)
          · rw [keysOf, List.map_cons, List.nodup_cons]
            exact ⟨not_mem_keysOf_removeKey _ _ h2, nodup_removeKey _ _ h2⟩
          · intro p hp hk
            rcases List.mem_cons.1 hp with hp1 | hp1
            · have hp2 : p.2 = addKey k2 set := by rw [hp1]
              have hp1a : p.1 = bucketOf B t := by rw [hp1]
              rw [hp2, addKey] at hk
              rw [hp1a]
              by_cases hk2 : k2 ∈ set
              · rw [if_pos hk2] at hk
                exact h3 (bucketOf B t, set) hmem hk
              · rw [if_neg hk2] at hk
                rcases List.mem_cons.1 hk with hkk | hkk
                · subst hkk
                  exact hreg t (List.mem_cons_self _ _)
                · exact h3 (bucketOf B t, set) hmem hkk
            · exact h3 p (mem_removeKey _ _ _ hp1) hk
        | none =>
          simp only [hlk]
          have hnk : bucketOf B t ∉ keysOf s.buckets :=
            (lookupKey_eq_none_iff _ _).1 hlk
          refine ⟨?_, ?_, ?_, fun r hr => by cases hr⟩
          · intro p hp
            rcases List.mem_cons.1 hp with hp1 | hp1
            · rw [hp1]
              simp
            · exact h1 p hp1
          · rw [keysOf, List.map_cons, List.nodup_cons]
            exact ⟨hnk, h2⟩
          · intro p hp hk
            rcases List.mem_cons.1 hp with hp1 | hp1
            · rw [hp1] at hk ⊢
              simp at hk
              subst hk
              exact hreg t (List.mem_cons_self _ _)
            · exact h3 p hp1 hk
      | unregister h k2 =>
        simp only [stepE, unregister]
        cases hlk : lookupKey h s.buckets with
        | some set =>
          simp only [hlk]
          have hmem : (h, set) ∈ s.buckets := lookupKey_mem _ _ _ hlk
          by_cases hemp : (set.erase k2).isEmpty
          · rw [if_pos hemp]
            exact ⟨fun p hp => h1 p (mem_removeKey _ _ _ hp),
              nodup_removeKey _ _ h2,
              fun p hp hk => h3 p (mem_removeKey _ _ _ hp) hk,
              fun r hr => by cases hr⟩
          · rw [if_neg hemp]
            refine ⟨?_, ?_, ?_, fun r hr => by cases hr⟩
            · intro p hp
              rcases List.mem_cons.1 hp with hp1 | hp1
              · rw [hp1]
                exact (h1 (h, set) hmem).erase k2
              · exact h1 p (mem_removeKey _ _ _ hp1)
            · rw [keysOf, List.map_cons, List.nodup_cons]
              exact ⟨not_mem_keysOf_removeKey _ _ h2, nodup_removeKey _ _ h2⟩
            · intro p hp hk
              rcases List.mem_cons.1 hp with hp1 | hp1
              · have hp2 : p.2 = set.erase k2 := by rw [hp1]
                have hp1a : p.1 = h := by rw [hp1]
                rw [hp2] at hk
                rw [hp1a]
                exact h3 (h, set) hmem (List.mem_of_mem_erase hk)
              · exact h3 p (mem_removeKey _ _ _ hp1) hk
        | none =>
          simp only [hlk]
          exact ⟨h1, h2, h3, fun r hr => by cases hr⟩
      | advance d =>
        exact ⟨h1, h2, h3, fun r hr => by cases hr⟩
      | drain =>
        simp only [stepE, drain]
        cases hm : heapMin s.heap with
        | none => exact ⟨h1, h2, h3, fun r hr => by cases hr⟩
        | some m =>
          simp only [hm]
          by_cases hnow : m ≤ s.now
          · rw [if_pos hnow]
            cases hlk : lookupKey m s.buckets with
            | some set =>
              simp only [hlk]
              have hmem : (m, set) ∈ s.buckets := lookupKey_mem _ _ _ hlk
              refine ⟨fun p hp => h1 p (mem_removeKey _ _ _ hp),
                nodup_removeKey _ _ h2,
                fun p hp hk => h3 p (mem_removeKey _ _ _ hp) hk, ?_⟩
              intro r hr hk
              cases hr
              exact h3 _ hmem hk
            | none =>
              simp only [hlk]
              exact ⟨h1, h2, h3, fun r hr => by cases hr⟩
          · rw [if_neg hnow]
            exact ⟨h1, h2, h3, fun r hr => by cases hr⟩
    obtain ⟨g1, g2, g3, g4⟩ := hstep
    obtain ⟨f1, f2, f3, f4⟩ := ih (stepE B s e).1 hreg2 g1 g2 g3
    refine ⟨f1, f2, f3, ?_⟩
    intro r hr hk
    rw [runE] at hr
    rcases List.mem_append.1 hr with hr1 | hr1
    · cases hso : (stepE B s e).2 with
      | none => rw [hso] at hr1; simp at hr1
      | some r2 =>
        rw [hso] at hr1
        simp at hr1
        subst hr1
        exact g4 r hso hk
    · exact f4 r hr1 hk

/-- Once k is in no bucket and the remaining trace never registers k again,
k stays out of every bucket and out of every report. -/
theorem runE_k_gone (B : Nat) (k : K) (tr : List (EStep K)) :
    ∀ s : EState K,
      (∀ e ∈ tr, ¬ isRegisterOf k e) →
      (∀ p ∈ s.buckets, k ∉ p.2) →
      ((∀ p ∈ (runE B s tr).1.buckets, k ∉ p.2) ∧
       (∀ r ∈ (runE B s tr).2, k ∉ r.keys)) := by
  induction tr with
  | nil =>
    intro s _ hq
    refine ⟨hq, ?_⟩
    intro r hr
    simp [runE] at hr
  | cons e tr ih =>
    intro s hnr hq
    have hnr2 : ∀ e2 ∈ tr, ¬ isRegisterOf k e2 :=
      fun e2 he => hnr e2 (List.mem_cons_of_mem _ he)
    have hstep : (∀ p ∈ (stepE B s e).1.buckets, k ∉ p.2) ∧
        (∀ r, (stepE B s e).2 = some r → k ∉ r.keys) := by
      cases e with
      | register k2 t =>
        have hk2 : k2 ≠ k := by
          intro he
          exact hnr _ (List.mem_cons_self _ _) (by rw [isRegisterOf]; exact he)
        simp only [stepE, register]
        cases hlk : lookupKey (bucketOf B t) s.buckets with
        | some set =>
          simp only [hlk]
          have hmem : (bucketOf B t, set) ∈ s.buckets := lookupKey_mem _ _ _ hlk
          refine ⟨?_, fun r hr => by cases hr⟩
          intro p hp
          rcases List.mem_cons.1 hp with hp1 | hp1
          · rw [hp1, addKey]
            split
            · exact hq _ hmem
            · intro hk
              rcases List.mem_cons.1 hk with hkk | hkk
              · exact hk2 hkk.symm
              · exact hq _ hmem hkk
          · exact hq p (mem_removeKey _ _ _ hp1)
        | none =>
          simp only [hlk]
          refine ⟨?_, fun r hr => by cases hr⟩
          intro p hp
          rcases List.mem_cons.1 hp with hp1 | hp1
          · rw [hp1]
            intro hk
            rcases List.mem_cons.1 hk with hkk | hkk
            · exact hk2 hkk.symm
            · simp at hkk
          · exact hq p hp1
      | unregister h k2 =>
        simp only [stepE, unregister]
        cases hlk : lookupKey h s.buckets with
        | some set =>
          simp only [hlk]
          have hmem : (h, set) ∈ s.buckets := lookupKey_mem _ _ _ hlk
          by_cases hemp : (set.erase k2).isEmpty
          · rw [if_pos hemp]
            exact ⟨fun p hp => hq p (mem_removeKey _ _ _ hp),
              fun r hr => by cases hr⟩
          · rw [if_neg hemp]
            refine ⟨?_, fun r hr => by cases hr⟩
            intro p hp
            rcases List.mem_cons.1 hp with hp1 | hp1
            · rw [hp1]
              intro hk
              exact hq _ hmem (List.mem_of_mem_erase hk)
            · exact hq p (mem_removeKey _ _ _ hp1)
        | none =>
          simp only [hlk]
          exact ⟨hq, fun r hr => by cases hr⟩
      | advance d =>
        exact ⟨hq, fun r hr => by cases hr⟩
      | drain =>
        simp only [stepE, drain]
        cases hm : heapMin s.heap with
        | none => exact ⟨hq, fun r hr => by cases hr⟩
        | some m =>
          simp only [hm]
          by_cases hnow : m ≤ s.now
          · rw [if_pos hnow]
            cases hlk : lookupKey m s.buckets with
            | some set =>
              simp only [hlk]
              have hmem : (m, set) ∈ s.buckets := lookupKey_mem _ _ _ hlk
              refine ⟨fun p hp => hq p (mem_removeKey _ _ _ hp), ?_⟩
              intro r hr
              cases hr
              exact hq _ hmem
            | none =>
              simp only [hlk]
              exact ⟨hq, fun r hr => by cases hr⟩
          · rw [if_neg hnow]
            exact ⟨hq, fun r hr => by cases hr⟩
    obtain ⟨g1, g2⟩ := hstep
    obtain ⟨f1, f2⟩ := ih (stepE B s e).1 hnr2 g1
    refine ⟨f1, ?_⟩
    intro r hr
    rw [runE] at hr
    rcases List.mem_append.1 hr with hr1 | hr1
    · cases hso : (stepE B s e).2 with
      | none => rw [hso] at hr1; simp at hr1
      | some r2 =>
        rw [hso] at hr1
        simp at hr1
        subst hr1
        exact g2 r hso
    · exact f2 r hr1

/-- Unregistering k with its bucket(T) handle clears k from every bucket,
given that k only ever sat in the bucket(T) bucket. -/
theorem unregister_clears (B T : Nat) (k : K) (s : EState K)
    (hnd : ∀ p ∈ s.buckets, p.2.Nodup)
    (hkeys : (keysOf s.buckets).Nodup)
    (hP : ∀ p ∈ s.buckets, k ∈ p.2 → p.1 = bucketOf B T) :
    ∀ p ∈ (unregister s (bucketOf B T) k).buckets, k ∉ p.2 := by
  rw [unregister]
  cases hlk : lookupKey (bucketOf B T) s.buckets with
  | some set =>
    simp only [hlk]
    have hmem : (bucketOf B T, set) ∈ s.buckets := lookupKey_mem _ _ _ hlk
    by_cases hemp : (set.erase k).isEmpty
    · rw [if_pos hemp]
      intro p hp hk
      have hne : p.1 ≠ bucketOf B T := by
        intro he
        have hx : p.1 ∈ keysOf (removeKey (bucketOf B T) s.buckets) :=
          List.mem_map.2 ⟨p, hp, rfl⟩
        rw [he] at hx
        exact not_mem_keysOf_removeKey (bucketOf B T) s.buckets hkeys hx
      exact hne (hP p (mem_removeKey _ _ _ hp) hk)
    · rw [if_neg hemp]
      intro p hp hk
      rcases List.mem_cons.1 hp with hp1 | hp1
      · rw [hp1] at hk
        exact (List.Nodup.not_mem_erase (hnd _ hmem)) hk
      · have hne : p.1 ≠ bucketOf B T := by
          intro he
          have hx : p.1 ∈ keysOf (removeKey (bucketOf B T) s.buckets) :=
            List.mem_map.2 ⟨p, hp1, rfl⟩
          rw [he] at hx
          exact not_mem_keysOf_removeKey (bucketOf B T) s.buckets hkeys hx
        exact hne (hP p (mem_removeKey _ _ _ hp1) hk)
  | none =>
    simp only [hlk]
    intro p hp hk
    have := hP p hp hk
    apply (lookupKey_eq_none_iff (bucketOf B T) s.buckets).1 hlk
    rw [← this]
    exact List.mem_map.2 ⟨p, hp, rfl⟩

theorem runE_append (B : Nat) (a b : List (EStep K)) :
    ∀ s : EState K,
      (runE B s (a ++ b)).1 = (runE B (runE B s a).1 b).1 ∧
      (runE B s (a ++ b)).2 = (runE B s a).2 ++ (runE B (runE B s a).1 b).2 := by
  induction a with
  | nil => intro s; simp [runE]
  | cons e a ih =>
    intro s
    rw [List.cons_append, runE, runE]
    obtain ⟨ih1, ih2⟩ := ih (stepE B s e).1
    constructor
    · rw [ih1]
    · rw [ih2]
      simp

end expiry

/-- Claim C8: when every registration of key k lands in the bucket of
deadline T, the expiry engine reports k only in the bucket(T) report and
only once the wall clock has reached bucket(T) (every report is emitted at
or after its deadline — the armed delay is floored at zero in the drain
guard); and if k is unregistered with its bucket(T) handle and never
re-registered, no later report contains k. -/
theorem C8_expiry_soundness {K : Type} [DecidableEq K] (B T : Nat) (k : K)
    (tr : List (expiry.EStep K))
    (hreg : ∀ t2, expiry.EStep.register k t2 ∈ tr →
      expiry.bucketOf B t2 = expiry.bucketOf B T) :
    (∀ r ∈ (expiry.runE B expiry.init tr).2,
      r.deadline ≤ r.time ∧ (k ∈ r.keys → r.deadline = expiry.bucketOf B T)) ∧
    (∀ pre post,
      tr = pre ++ expiry.EStep.unregister (expiry.bucketOf B T) k :: post →
      (∀ e ∈ post, ¬ expiry.isRegisterOf k e) →
      ∀ r ∈ (expiry.runE B
          (expiry.runE B expiry.init
            (pre ++ [expiry.EStep.unregister (expiry.bucketOf B T) k])).1 post).2,
        k ∉ r.keys) := by
  constructor
  · intro r hr
    refine ⟨expiry.runE_reports_le B tr expiry.init r hr, ?_⟩
    have h := expiry.runE_k_local B T k tr expiry.init hreg
      (by simp [expiry.init]) (by simp [expiry.init, keysOf]) (by simp [expiry.init])
    exact h.2.2.2 r hr
  · intro pre post htr hnr
    have hregpre : ∀ t2, expiry.EStep.register k t2 ∈ pre →
        expiry.bucketOf B t2 = expiry.bucketOf B T := by
      intro t2 ht
      exact hreg t2 (htr ▸ List.mem_append.2 (Or.inl ht))
    have hW := expiry.runE_k_local B T k pre expiry.init hregpre
      (by simp [expiry.init]) (by simp [expiry.init, keysOf]) (by simp [expiry.init])
    have hs2 : (expiry.runE B expiry.init
        (pre ++ [expiry.EStep.unregister (expiry.bucketOf B T) k])).1 =
        expiry.unregister (expiry.runE B expiry.init pre).1 (expiry.bucketOf B T) k := by
      rw [(expiry.runE_append B pre
        [expiry.EStep.unregister (expiry.bucketOf B T) k] expiry.init).1]
      rfl
    have hq : ∀ p ∈ (expiry.unregister (expiry.runE B expiry.init pre).1
        (expiry.bucketOf B T) k).buckets, k ∉ p.2 :=
      expiry.unregister_clears B T k _ hW.1 hW.2.1 hW.2.2.1
    rw [hs2]
    exact (expiry.runE_k_gone B k post _ hnr hq).2

/-- Witness for C8: bucket width 10, key 1 registered for deadline 5
(bucket 10), unregistered, clock advanced past the bucket, one drain. -/
theorem C8_expiry_soundness_witness :
    (∀ r ∈ (expiry.runE 10 expiry.init
        [expiry.EStep.register (1 : Nat) 5, expiry.EStep.unregister 10 1,
         expiry.EStep.advance 12, expiry.EStep.drain]).2,
      r.deadline ≤ r.time ∧ (1 ∈ r.keys → r.deadline = expiry.bucketOf 10 5)) ∧
    (∀ pre post,
      [expiry.EStep.register (1 : Nat) 5, expiry.EStep.unregister 10 1,
       expiry.EStep.advance 12, expiry.EStep.drain] =
        pre ++ expiry.EStep.unregister (expiry.bucketOf 10 5) 1 :: post →
      (∀ e ∈ post, ¬ expiry.isRegisterOf 1 e) →
      ∀ r ∈ (expiry.runE 10
          (expiry.runE 10 expiry.init
            (pre ++ [expiry.EStep.unregister (expiry.bucketOf 10 5) 1])).1 post).2,
        1 ∉ r.keys) :=
  C8_expiry_soundness 10 5 1
    [expiry.EStep.register (1 : Nat) 5, expiry.EStep.unregister 10 1,
     expiry.EStep.advance 12, expiry.EStep.drain]
    (by
      intro t2 ht
      simp at ht
      rw [ht])

/-! The C1 ghost-map simulation. -/

section assoclemmas2

variable {K V : Type} [DecidableEq K]

theorem lookupKey_cons (k2 k : K) (v : V) (l : List (K × V)) :
    lookupKey k2 ((k, v) :: l) = if k = k2 then some v else lookupKey k2 l := rfl

theorem nodup_cons_removeKey (k : K) (v : V) (l : List (K × V))
    (h : (keysOf l).Nodup) : (keysOf ((k, v) :: removeKey k l)).Nodup := by
  rw [keysOf, List.map_cons, List.nodup_cons]
  exact ⟨not_mem_keysOf_removeKey _ _ h, nodup_removeKey _ _ h⟩

theorem mem_keysOf_of_lookup_ne (k : K) (l : List (K × V))
    (h : lookupKey k l ≠ none) : k ∈ keysOf l := by
  by_contra hn
  exact h ((lookupKey_eq_none_iff k l).2 hn)

theorem nodup_foldl_removeKey (ev : List (K × V)) :
    ∀ g : List (K × V), (keysOf g).Nodup →
      (keysOf (ev.foldl (fun acc e => removeKey e.1 acc) g)).Nodup := by
  induction ev with
  | nil => exact fun g h => h
  | cons e ev ih =>
    intro g h
    rw [List.foldl_cons]
    exact ih _ (nodup_removeKey _ _ h)

theorem lookup_foldl_removeKey_none (ev : List (K × V)) :
    ∀ g : List (K × V), (keysOf g).Nodup →
      (∀ k2 ∈ keysOf g, k2 ∈ keysOf ev) →
      ∀ k2, lookupKey k2 (ev.foldl (fun acc e => removeKey e.1 acc) g) = none := by
  induction ev with
  | nil =>
    intro g hnd hsub k2
    cases g with
    | nil => rfl
    | cons e es =>
      exfalso
      have := hsub e.1 (by rw [keysOf, List.map_cons]; exact List.mem_cons_self _ _)
      simp [keysOf] at this
  | cons e ev ih =>
    intro g hnd hsub k2
    rw [List.foldl_cons]
    refine ih (removeKey e.1 g) (nodup_removeKey _ _ hnd) ?_ k2
    intro k3 hk3
    have hk3g : k3 ∈ keysOf g := keysOf_removeKey_sub _ _ _ hk3
    have hm := hsub k3 hk3g
    rw [keysOf, List.map_cons] at hm
    rcases List.mem_cons.1 hm with h1 | h1
    · exfalso
      rw [h1] at hk3
      exact not_mem_keysOf_removeKey e.1 g hnd hk3
    · exact h1

theorem dropLast_reverse (l : List (K × V)) (h : l ≠ []) :
    l.reverse.dropLast = l.tail.reverse := by
  cases l with
  | nil => exact absurd rfl h
  | cons a t =>
    rw [List.reverse_cons, List.dropLast_concat]
    rfl

end assoclemmas2

namespace lru

variable {K V : Type} [DecidableEq K]

theorem step_put_shut (s : Cache K V) (k : K) (v : V) (hs : s.isShutdown = true) :
    s.step (Op.put k v) = ([], s) := by
  simp [Cache.step, Cache.Put, hs]

theorem step_put_update (s : Cache K V) (k : K) (v v0 : V)
    (hs : s.isShutdown = false) (hl : lookupKey k s.entries = some v0) :
    s.step (Op.put k v) = ([], { s with entries := (k, v) :: removeKey k s.entries }) := by
  simp [Cache.step, Cache.Put, hs, hl]

theorem step_put_evict (s : Cache K V) (k : K) (v : V) (e0 : K × V)
    (hs : s.isShutdown = false) (hl : lookupKey k s.entries = none)
    (hfull : s.entries.length = s.capacity) (hgl : s.entries.getLast? = some e0) :
    s.step (Op.put k v) = ([e0], { s with entries := (k, v) :: s.entries.dropLast }) := by
  simp only [Cache.step, Cache.Put, hs, Bool.false_eq_true, if_false, hl]
  rw [if_pos hfull, hgl]

theorem step_put_empty_full (s : Cache K V) (k : K) (v : V)
    (hs : s.isShutdown = false) (hl : lookupKey k s.entries = none)
    (hfull : s.entries.length = s.capacity) (hgl : s.entries.getLast? = none) :
    s.step (Op.put k v) = ([], { s with entries := [(k, v)] }) := by
  simp only [Cache.step, Cache.Put, hs, Bool.false_eq_true, if_false, hl]
  rw [if_pos hfull, hgl]

theorem step_put_grow (s : Cache K V) (k : K) (v : V)
    (hs : s.isShutdown = false) (hl : lookupKey k s.entries = none)
    (hfull : ¬ s.entries.length = s.capacity) :
    s.step (Op.put k v) = ([], { s with entries := (k, v) :: s.entries }) := by
  simp only [Cache.step, Cache.Put, hs, Bool.false_eq_true, if_false, hl]
  rw [if_neg hfull]

theorem step_get_shut (s : Cache K V) (k : K) (hs : s.isShutdown = true) :
    s.step (Op.get k) = ([], s) := by
  simp [Cache.step, Cache.Get, hs]

theorem step_get_hit (s : Cache K V) (k : K) (v0 : V)
    (hs : s.isShutdown = false) (hl : lookupKey k s.entries = some v0) :
    s.step (Op.get k) = ([], { s with entries := (k, v0) :: removeKey k s.entries }) := by
  simp [Cache.step, Cache.Get, hs, hl]

theorem step_get_miss (s : Cache K V) (k : K)
    (hs : s.isShutdown = false) (hl : lookupKey k s.entries = none) :
    s.step (Op.get k) = ([], s) := by
  simp [Cache.step, Cache.Get, hs, hl]

theorem step_del_shut (s : Cache K V) (k : K) (hs : s.isShutdown = true) :
    s.step (Op.del k) = ([], s) := by
  simp [Cache.step, Cache.Delete, hs]

theorem step_del_hit (s : Cache K V) (k : K) (v0 : V)
    (hs : s.isShutdown = false) (hl : lookupKey k s.entries = some v0) :
    s.step (Op.del k) = ([(k, v0)], { s with entries := removeKey k s.entries }) := by
  simp [Cache.step, Cache.Delete, hs, hl]

theorem step_del_miss (s : Cache K V) (k : K)
    (hs : s.isShutdown = false) (hl : lookupKey k s.entries = none) :
    s.step (Op.del k) = ([], s) := by
  simp [Cache.step, Cache.Delete, hs, hl]

theorem step_reset_shut (s : Cache K V) (hs : s.isShutdown = true) :
    s.step Op.reset = ([], s) := by
  simp [Cache.step, Cache.Reset, hs]

theorem step_reset_act (s : Cache K V) (hs : s.isShutdown = false) :
    s.step Op.reset = (s.entries.reverse, { s with entries := [] }) := by
  simp [Cache.step, Cache.Reset, hs]

theorem step_shutdown_shut (s : Cache K V) (hs : s.isShutdown = true) :
    s.step Op.shutdown = ([], s) := by
  simp [Cache.step, Cache.Shutdown, hs]

theorem step_shutdown_act (s : Cache K V) (hs : s.isShutdown = false) :
    s.step Op.shutdown =
      (s.entries.reverse, { s with isShutdown := true, entries := [] }) := by
  simp [Cache.step, Cache.Shutdown, hs]

theorem ghostStep_put (s : Cache K V) (g : List (K × V)) (k : K) (v : V) :
    ghostStep s g (Op.put k v) =
      if s.isShutdown then
        ((s.step (Op.put k v)).1.foldl (fun acc e => removeKey e.1 acc) g)
      else
        (k, v) :: removeKey k
          ((s.step (Op.put k v)).1.foldl (fun acc e => removeKey e.1 acc) g) := rfl

theorem ghostStep_get (s : Cache K V) (g : List (K × V)) (k : K) :
    ghostStep s g (Op.get k) =
      (s.step (Op.get k)).1.foldl (fun acc e => removeKey e.1 acc) g := rfl

theorem ghostStep_del (s : Cache K V) (g : List (K × V)) (k : K) :
    ghostStep s g (Op.del k) =
      (s.step (Op.del k)).1.foldl (fun acc e => removeKey e.1 acc) g := rfl

theorem ghostStep_reset (s : Cache K V) (g : List (K × V)) :
    ghostStep s g Op.reset =
      (s.step Op.reset).1.foldl (fun acc e => removeKey e.1 acc) g := rfl

theorem ghostStep_shutdown (s : Cache K V) (g : List (K × V)) :
    ghostStep s g Op.shutdown =
      (s.step Op.shutdown).1.foldl (fun acc e => removeKey e.1 acc) g := rfl

theorem ghost_drain_none (s : Cache K V) (g : List (K × V))
    (h2 : (keysOf g).Nodup)
    (h3 : ∀ k2, lookupKey k2 s.entries = lookupKey k2 g) :
    ∀ k2, lookupKey k2
      (s.entries.reverse.foldl (fun acc e => removeKey e.1 acc) g) = none := by
  refine lookup_foldl_removeKey_none _ g h2 ?_
  intro k2 hk2
  have hgne : lookupKey k2 g ≠ none := by
    intro h
    exact (lookupKey_eq_none_iff k2 g).1 h hk2
  have hene : lookupKey k2 s.entries ≠ none := by
    rw [h3]
    exact hgne
  have hmem := mem_keysOf_of_lookup_ne k2 s.entries hene
  show k2 ∈ keysOf s.entries.reverse
  rw [keysOf, List.map_reverse, List.mem_reverse]
  exact hmem

theorem ghost_inv_step (s : Cache K V) (g : List (K × V)) (op : Op K V)
    (h1 : (keysOf s.entries).Nodup) (h2 : (keysOf g).Nodup)
    (h3 : ∀ k2, lookupKey k2 s.entries = lookupKey k2 g) :
    (keysOf ((s.step op).2).entries).Nodup ∧
    (keysOf (ghostStep s g op)).Nodup ∧
    (∀ k2, lookupKey k2 ((s.step op).2).entries = lookupKey k2 (ghostStep s g op)) := by
  cases op with
  | put k v =>
    by_cases hs : s.isShutdown
    · simp only [step_put_shut s k v hs, ghostStep_put, if_pos hs, List.foldl_nil]
      exact ⟨h1, h2, h3⟩
    · have hsf : s.isShutdown = false := by simpa using hs
      cases hl : lookupKey k s.entries with
      | some v0 =>
        simp only [step_put_update s k v v0 hsf hl, ghostStep_put, if_neg hs,
          List.foldl_nil]
        refine ⟨nodup_cons_removeKey k v _ h1, nodup_cons_removeKey k v _ h2, ?_⟩
        intro k2
        rw [lookupKey_cons, lookupKey_cons]
        by_cases hk2 : k = k2
        · rw [if_pos hk2, if_pos hk2]
        · rw [if_neg hk2, if_neg hk2, lookupKey_removeKey_ne k k2 _ hk2,
            lookupKey_removeKey_ne k k2 _ hk2, h3]
      | none =>
        by_cases hfull : s.entries.length = s.capacity
        · cases hgl : s.entries.getLast? with
          | some e0 =>
            have hne : s.entries ≠ [] := by
              intro he
              rw [he] at hgl
              cases hgl
            have hgl2 : s.entries.getLast hne = e0 :=
              Option.some.inj
                ((List.getLast?_eq_getLast s.entries hne).symm.trans hgl)
            have hdrop : s.entries.dropLast = removeKey e0.1 s.entries := by
              rw [← hgl2, removeKey_getLast_eq_dropLast s.entries hne h1]
            have hke0 : e0.1 ≠ k := by
              intro he
              have hm : e0 ∈ s.entries := by
                rw [← hgl2]
                exact List.getLast_mem hne
              have hkm : k ∈ keysOf s.entries := by
                rw [← he]
                exact List.mem_map.2 ⟨e0, hm, rfl⟩
              exact (lookupKey_eq_none_iff k s.entries).1 hl hkm
            simp only [step_put_evict s k v e0 hsf hl hfull hgl, ghostStep_put,
              if_neg hs, List.foldl_cons, List.foldl_nil]
            refine ⟨?_, nodup_cons_removeKey k v _ (nodup_removeKey _ _ h2), ?_⟩
            · rw [keysOf, List.map_cons, List.nodup_cons]
              constructor
              · intro hm
                rw [hdrop] at hm
                have hkm : k ∈ keysOf s.entries :=
                  keysOf_removeKey_sub e0.1 k s.entries hm
                exact (lookupKey_eq_none_iff k s.entries).1 hl hkm
              · rw [hdrop]
                exact nodup_removeKey _ _ h1
            · intro k2
              rw [lookupKey_cons, lookupKey_cons]
              by_cases hk2 : k = k2
              · rw [if_pos hk2, if_pos hk2]
              · rw [if_neg hk2, if_neg hk2, hdrop]
                by_cases hk2e : k2 = e0.1
                · rw [hk2e, lookupKey_removeKey_self _ _ h1,
                    lookupKey_removeKey_ne k e0.1 _ (Ne.symm hke0),
                    lookupKey_removeKey_self _ _ h2]
                · rw [lookupKey_removeKey_ne e0.1 k2 _ (fun h => hk2e h.symm),
                    lookupKey_removeKey_ne k k2 _ hk2,
                    lookupKey_removeKey_ne e0.1 k2 _ (fun h => hk2e h.symm), h3]
          | none =>
            have hnil : s.entries = [] := List.getLast?_eq_none_iff.1 hgl
            simp only [step_put_empty_full s k v hsf hl hfull hgl, ghostStep_put,
              if_neg hs, List.foldl_nil]
            refine ⟨by simp [keysOf], nodup_cons_removeKey k v _ h2, ?_⟩
            intro k2
            rw [lookupKey_cons, lookupKey_cons]
            by_cases hk2 : k = k2
            · rw [if_pos hk2, if_pos hk2]
            · rw [if_neg hk2, if_neg hk2, lookupKey_removeKey_ne k k2 _ hk2,
                ← h3 k2, hnil]
        · simp only [step_put_grow s k v hsf hl hfull, ghostStep_put, if_neg hs,
            List.foldl_nil]
          refine ⟨?_, nodup_cons_removeKey k v _ h2, ?_⟩
          · rw [keysOf, List.map_cons, List.nodup_cons]
            exact ⟨(lookupKey_eq_none_iff k s.entries).1 hl, h1⟩
          · intro k2
            rw [lookupKey_cons, lookupKey_cons]
            by_cases hk2 : k = k2
            · rw [if_pos hk2, if_pos hk2]
            · rw [if_neg hk2, if_neg hk2, lookupKey_removeKey_ne k k2 _ hk2, h3]
  | get k =>
    by_cases hs : s.isShutdown
    · simp only [step_get_shut s k hs, ghostStep_get, List.foldl_nil]
      exact ⟨h1, h2, h3⟩
    · have hsf : s.isShutdown = false := by simpa using hs
      cases hl : lookupKey k s.entries with
      | some v0 =>
        simp only [step_get_hit s k v0 hsf hl, ghostStep_get, List.foldl_nil]
        refine ⟨nodup_cons_removeKey k v0 _ h1, h2, ?_⟩
        intro k2
        rw [lookupKey_cons]
        by_cases hk2 : k = k2
        · rw [if_pos hk2, ← hk2, ← h3 k, hl]
        · rw [if_neg hk2, lookupKey_removeKey_ne k k2 _ hk2, h3]
      | none =>
        simp only [step_get_miss s k hsf hl, ghostStep_get, List.foldl_nil]
        exact ⟨h1, h2, h3⟩
  | del k =>
    by_cases hs : s.isShutdown
    · simp only [step_del_shut s k hs, ghostStep_del, List.foldl_nil]
      exact ⟨h1, h2, h3⟩
    · have hsf : s.isShutdown = false := by simpa using hs
      cases hl : lookupKey k s.entries with
      | some v0 =>
        simp only [step_del_hit s k v0 hsf hl, ghostStep_del, List.foldl_cons,
          List.foldl_nil]
        refine ⟨nodup_removeKey _ _ h1, nodup_removeKey _ _ h2, ?_⟩
        intro k2
        by_cases hk2 : k2 = k
        · rw [hk2, lookupKey_removeKey_self _ _ h1, lookupKey_removeKey_self _ _ h2]
        · rw [lookupKey_removeKey_ne k k2 _ (fun h => hk2 h.symm),
            lookupKey_removeKey_ne k k2 _ (fun h => hk2 h.symm), h3]
      | none =>
        simp only [step_del_miss s k hsf hl, ghostStep_del, List.foldl_nil]
        exact ⟨h1, h2, h3⟩
  | reset =>
    by_cases hs : s.isShutdown
    · simp only [step_reset_shut s hs, ghostStep_reset, List.foldl_nil]
      exact ⟨h1, h2, h3⟩
    · have hsf : s.isShutdown = false := by simpa using hs
      simp only [step_reset_act s hsf, ghostStep_reset]
      refine ⟨by simp [keysOf], nodup_foldl_removeKey _ g h2, ?_⟩
      intro k2
      rw [ghost_drain_none s g h2 h3 k2]
      rfl
  | shutdown =>
    by_cases hs : s.isShutdown
    · simp only [step_shutdown_shut s hs, ghostStep_shutdown, List.foldl_nil]
      exact ⟨h1, h2, h3⟩
    · have hsf : s.isShutdown = false := by simpa using hs
      simp only [step_shutdown_act s hsf, ghostStep_shutdown]
      refine ⟨by simp [keysOf], nodup_foldl_removeKey _ g h2, ?_⟩
      intro k2
      rw [ghost_drain_none s g h2 h3 k2]
      rfl

theorem runG_inv (c : Nat) (ops : List (Op K V)) :
    (keysOf (runG c ops).1.entries).Nodup ∧
    (keysOf (runG c ops).2).Nodup ∧
    (∀ k, lookupKey k (runG c ops).1.entries = lookupKey k (runG c ops).2) := by
  suffices h : ∀ (s : Cache K V) (g : List (K × V)),
      (keysOf s.entries).Nodup → (keysOf g).Nodup →
      (∀ k, lookupKey k s.entries = lookupKey k g) →
      ((keysOf (ops.foldl
          (fun p op => ((p.1.step op).2, ghostStep p.1 p.2 op)) (s, g)).1.entries).Nodup ∧
       (keysOf (ops.foldl
          (fun p op => ((p.1.step op).2, ghostStep p.1 p.2 op)) (s, g)).2).Nodup ∧
       (∀ k, lookupKey k (ops.foldl
          (fun p op => ((p.1.step op).2, ghostStep p.1 p.2 op)) (s, g)).1.entries =
         lookupKey k (ops.foldl
          (fun p op => ((p.1.step op).2, ghostStep p.1 p.2 op)) (s, g)).2)) by
    exact h (Cache.new c) [] (by simp [Cache.new, keysOf]) (by simp [keysOf])
      (fun k => rfl)
  induction ops with
  | nil => exact fun s g a b c2 => ⟨a, b, c2⟩
  | cons op tr ih =>
    intro s g ha hb hc
    rw [List.foldl_cons]
    obtain ⟨g1, g2, g3⟩ := ghost_inv_step s g op ha hb hc
    exact ih _ _ g1 g2 g3

theorem get_value_active (s : Cache K V) (k : K) (hs : s.isShutdown = false) :
    (s.Get k).value = lookupKey k s.entries := by
  rw [Cache.Get, if_neg (by rw [hs]; simp)]
  cases hl : lookupKey k s.entries <;> rfl

theorem fill_aux (ps : List (K × V)) :
    ∀ s : Cache K V, s.isShutdown = false →
      (∀ k ∈ keysOf ps, k ∉ keysOf s.entries) →
      (keysOf ps).Nodup →
      s.entries.length + ps.length ≤ s.capacity →
      ((ps.map (fun p => Op.put p.1 p.2)).foldl (fun s2 op => (s2.step op).2) s) =
        { isShutdown := false, capacity := s.capacity,
          entries := ps.reverse ++ s.entries } := by
  induction ps with
  | nil =>
    intro s hs _ _ _
    simp only [List.map_nil, List.foldl_nil, List.reverse_nil, List.nil_append]
    cases s with
    | mk sd cap ent =>
      simp only at hs
      rw [hs]
  | cons p ps ih =>
    intro s hs hdisj hnd hlen
    rw [List.map_cons, List.foldl_cons]
    have hfresh : lookupKey p.1 s.entries = none := by
      refine (lookupKey_eq_none_iff _ _).2 ?_
      exact hdisj p.1 (by rw [keysOf, List.map_cons]; exact List.mem_cons_self _ _)
    have hnotfull : ¬ s.entries.length = s.capacity := by
      simp only [List.length_cons] at hlen
      omega
    rw [step_put_grow s p.1 p.2 hs hfresh hnotfull]
    rw [keysOf, List.map_cons, List.nodup_cons] at hnd
    have hd2 : ∀ k ∈ keysOf ps, k ∉ keysOf ((p.1, p.2) :: s.entries) := by
      intro k hk
      rw [keysOf, List.map_cons]
      intro hm
      rcases List.mem_cons.1 hm with h1 | h1
      · exact hnd.1 (h1 ▸ hk)
      · exact hdisj k (by rw [keysOf, List.map_cons]; exact List.mem_cons_of_mem _ hk) h1
    have hl2 : ((p.1, p.2) :: s.entries).length + ps.length ≤ s.capacity := by
      simp only [List.length_cons] at hlen ⊢
      omega
    have hstep := ih { s with entries := (p.1, p.2) :: s.entries } hs hd2 hnd.2 hl2
    rw [hstep]
    simp [List.reverse_cons, List.append_assoc]

end lru

/-- Claim C1: in every reachable state, Get(k) returns (v, true) exactly
when v is the value of the most recent Put for k and k has not been
deleted or evicted since — the cache association always equals the ghost
map built from the Puts, Deletes and the reported eviction events; and
filling a fresh capacity-N cache with N distinct keys and then putting one
more fresh key evicts exactly the first-inserted (least-recently-touched)
key, leaving the new key and all other keys retrievable with their
original values and the evicted key gone. -/
theorem C1_get_most_recent_put {K V : Type} [DecidableEq K] :
    (∀ (c : Nat) (ops : List (lru.Op K V)) (k : K),
      lookupKey k (lru.runG c ops).1.entries = lookupKey k (lru.runG c ops).2 ∧
      ((lru.runG c ops).1.isShutdown = false → ∀ v : V,
        (((lru.runG c ops).1.Get k).value = some v ↔
          lookupKey k (lru.runG c ops).2 = some v))) ∧
    (∀ (c : Nat) (ps : List (K × V)) (k2 : K) (v2 : V) (hne : ps ≠ []),
      ps.length = c → (keysOf ps).Nodup → k2 ∉ keysOf ps →
      ((lru.runOps c (ps.map fun p => lru.Op.put p.1 p.2)).Put k2 v2).evicted =
          [ps.head hne] ∧
      lookupKey k2
          (((lru.runOps c (ps.map fun p => lru.Op.put p.1 p.2)).Put k2 v2).st.entries) =
        some v2 ∧
      lookupKey (ps.head hne).1
          (((lru.runOps c (ps.map fun p => lru.Op.put p.1 p.2)).Put k2 v2).st.entries) =
        none ∧
      (∀ p ∈ ps.tail,
        lookupKey p.1
            (((lru.runOps c (ps.map fun p => lru.Op.put p.1 p.2)).Put k2 v2).st.entries) =
          some p.2)) := by
  constructor
  · intro c ops k
    obtain ⟨g1, g2, g3⟩ := lru.runG_inv (K := K) (V := V) c ops
    refine ⟨g3 k, ?_⟩
    intro hact v
    rw [lru.get_value_active _ k hact, g3 k]
  · intro c ps k2 v2 hne hlen hnd hk2
    have hfill := lru.fill_aux ps (lru.Cache.new c) rfl
      (by intro k hk; simp [lru.Cache.new, keysOf]) hnd
      (by simp [lru.Cache.new]; omega)
    have hrun : lru.runOps c (ps.map fun p => lru.Op.put p.1 p.2) =
        { isShutdown := false, capacity := c, entries := ps.reverse } := by
      rw [lru.runOps, hfill]
      simp [lru.Cache.new]
    cases ps with
    | nil => exact absurd rfl hne
    | cons a t =>
      have hrevne : (a :: t).reverse ≠ [] := by simp
      have hget : ((a :: t).reverse).getLast hrevne = a := by
        have h1 := List.getLast?_eq_getLast ((a :: t).reverse) hrevne
        rw [List.getLast?_reverse] at h1
        exact (Option.some.inj h1).symm
      have hndrev : (keysOf ((a :: t).reverse)).Nodup := by
        rw [keysOf, List.map_reverse]
        exact List.nodup_reverse.2 hnd
      have habs : lookupKey k2 ((a :: t).reverse) = none := by
        refine (lookupKey_eq_none_iff _ _).2 ?_
        rw [keysOf, List.map_reverse, List.mem_reverse]
        exact hk2
      have hcap := lru.put_at_capacity
        ({ isShutdown := false, capacity := c, entries := (a :: t).reverse } :
          lru.Cache K V) k2 v2 rfl habs
        (by simp only [List.length_reverse]; exact hlen) hrevne hndrev
      rw [hrun]
      obtain ⟨e1, e2, e3, e4, _⟩ := hcap
      have hdrop : ((a :: t).reverse).dropLast = t.reverse :=
        dropLast_reverse (a :: t) (by simp)
      refine ⟨?_, e4, ?_, ?_⟩
      · rw [e1, hget]
        rfl
      · have := e3
        rw [hget] at this
        exact this
      · intro p hp
        rw [e2, hdrop]
        have hp1 : p ∈ a :: t := List.mem_cons_of_mem _ hp
        have hpk : p.1 ∈ keysOf (a :: t) := List.mem_map.2 ⟨p, hp1, rfl⟩
        have hpk2 : ¬ k2 = p.1 := by
          intro he
          exact hk2 (he ▸ hpk)
        rw [lookupKey_cons, if_neg hpk2]
        refine mem_lookupKey p.1 p.2 t.reverse ?_ ?_
        · rw [keysOf, List.map_reverse]
          refine List.nodup_reverse.2 ?_
          rw [keysOf, List.map_cons, List.nodup_cons] at hnd
          exact hnd.2
        · rw [List.mem_reverse]
          simpa using hp

/-- Witness for C1: a concrete trace for the ghost-map correspondence and
the concrete capacity-2 fill-then-evict scenario. -/
theorem C1_get_most_recent_put_witness :
    (lookupKey 1 (lru.runG 2 [lru.Op.put 1 10, lru.Op.get 1, lru.Op.put 2 20] :
        lru.Cache Nat Nat × List (Nat × Nat)).1.entries =
      lookupKey 1 (lru.runG 2 [lru.Op.put 1 10, lru.Op.get 1, lru.Op.put 2 20]).2 ∧
      ((lru.runG 2 [lru.Op.put 1 10, lru.Op.get 1,
          lru.Op.put 2 20]).1.isShutdown = false → ∀ v : Nat,
        (((lru.runG 2 [lru.Op.put 1 10, lru.Op.get 1,
            lru.Op.put 2 20]).1.Get 1).value = some v ↔
          lookupKey 1 (lru.runG 2 [lru.Op.put 1 10, lru.Op.get 1,
            lru.Op.put 2 20]).2 = some v))) ∧
    (((lru.runOps 2 ([(1, 10), (2, 20)].map fun p => lru.Op.put p.1 p.2) :
          lru.Cache Nat Nat).Put 3 30).evicted =
        [([(1, 10), (2, 20)] : List (Nat × Nat)).head (by decide)] ∧
      lookupKey 3
          (((lru.runOps 2 ([(1, 10), (2, 20)].map fun p => lru.Op.put p.1 p.2)).Put
            3 30).st.entries) = some 30 ∧
      lookupKey (([(1, 10), (2, 20)] : List (Nat × Nat)).head (by decide)).1
          (((lru.runOps 2 ([(1, 10), (2, 20)].map fun p => lru.Op.put p.1 p.2)).Put
            3 30).st.entries) = none ∧
      (∀ p ∈ ([(1, 10), (2, 20)] : List (Nat × Nat)).tail,
        lookupKey p.1
            (((lru.runOps 2 ([(1, 10), (2, 20)].map fun p => lru.Op.put p.1 p.2)).Put
              3 30).st.entries) = some p.2)) :=
  ⟨(C1_get_most_recent_put (K := Nat) (V := Nat)).1 2
      [lru.Op.put 1 10, lru.Op.get 1, lru.Op.put 2 20] 1,
    (C1_get_most_recent_put (K := Nat) (V := Nat)).2 2
      [(1, 10), (2, 20)] 3 30 (by decide) (by decide) (by decide) (by decide)⟩
